import Mathlib

/-!
# Makerates network loader and ODE generator: a shallow embedding

This file embeds `Makerates/Functions.py` (Python 2) in Lean 4 and settles a
set of claims about it. Strings are modelled as `List Char`; the csv layer is
modelled by handing each function the list of parsed rows (each row a list of
cell strings). Fallible Python code (IndexError, StopIteration, ValueError)
is modelled with `Option`; `while` loops whose progress depends on the data
are modelled with an explicit fuel parameter, with the out-of-fuel outcome
kept distinct from normal results so that non-termination of the source loop
is expressible.
-/

namespace Makerates

/-- Python strings, modelled as lists of characters. -/
abbrev Str := List Char

/-- Coerce a Lean string literal to the `Str` model. -/
def str (s : String) : Str := s.data

/-- `Species.__init__` (Functions.py:21-29): positional fields of a species
row.  `n_atoms` is absent until `find_constituents` assigns it
(Functions.py:211), modelled as an `Option` starting at `none`. -/
structure Species where
  name : Str
  mass : Str
  bindener : Str
  solidFraction : Str
  monoFraction : Str
  volcFraction : Str
  enthalpy : Str
  n_atoms : Option Nat
deriving DecidableEq, Repr

/-- Build a `Species` from a csv row (Functions.py:22-29).  Python indexes
`inputRow[0]`..`inputRow[6]` and raises `IndexError` on a shorter row,
modelled as `none`. -/
def Species.init (inputRow : List Str) : Option Species := do
  let f0 ← inputRow[0]?
  let f1 ← inputRow[1]?
  let f2 ← inputRow[2]?
  let f3 ← inputRow[3]?
  let f4 ← inputRow[4]?
  let f5 ← inputRow[5]?
  let f6 ← inputRow[6]?
  some ⟨f0, f1, f2, f3, f4, f5, f6, none⟩

/-- `Reaction.NANCheck` (Functions.py:41-43): `a if a else 'NAN'` — an empty
(falsy) string becomes the `'NAN'` sentinel. -/
def NANCheck (a : Str) : Str := if a = [] then str "NAN" else a

/-- `Reaction` (Functions.py:31-39): three reactant and four product slots
plus the rate-law and temperature fields.  Rate fields are kept as the raw
cell strings; the two places where Python stores a number into one of these
fields (`row[10]=0.0`, `row[11]=10000.0` in `read_reaction_file`, and
`reaction.beta=1` in `write_reactions`) are modelled by the decimal text of
that number, which is also what the csv writer emits for it. -/
structure Reaction where
  reactants : List Str
  products : List Str
  alpha : Str
  beta : Str
  gamma : Str
  templow : Str
  temphigh : Str
deriving DecidableEq, Repr

/-- `Reaction.__init__` (Functions.py:32-39).  Python indexes
`inputRow[0]`..`inputRow[11]`; a shorter row raises `IndexError`, modelled
as `none`. -/
def Reaction.init (inputRow : List Str) : Option Reaction := do
  let f0 ← inputRow[0]?
  let f1 ← inputRow[1]?
  let f2 ← inputRow[2]?
  let f3 ← inputRow[3]?
  let f4 ← inputRow[4]?
  let f5 ← inputRow[5]?
  let f6 ← inputRow[6]?
  let f7 ← inputRow[7]?
  let f8 ← inputRow[8]?
  let f9 ← inputRow[9]?
  let f10 ← inputRow[10]?
  let f11 ← inputRow[11]?
  some { reactants := [f0, f1, NANCheck f2]
         products := [f3, NANCheck f4, NANCheck f5, NANCheck f6]
         alpha := f7, beta := f8, gamma := f9
         templow := f10, temphigh := f11 }

/-- `read_species_file` (Functions.py:53-61): skip rows whose first field is
`"NAME"`, build a `Species` from every other row, return the count and the
list.  Python's `row[0]` raises on an empty row; `Species(row)` raises on a
short row — both modelled as `none`. -/
def read_species_rows : List (List Str) → Option (List Species)
  | [] => some []
  | row :: rest => do
    let f0 ← row[0]?
    if f0 = str "NAME" then read_species_rows rest
    else do
      let s ← Species.init row
      let tail ← read_species_rows rest
      some (s :: tail)

/-- `read_species_file` result pair `(nSpecies, speciesList)`
(Functions.py:60-61). -/
def read_species_file (rows : List (List Str)) : Option (Nat × List Species) := do
  let speciesList ← read_species_rows rows
  some (speciesList.length, speciesList)

/-- The fixed head of the keep-list (Functions.py:68): process tokens and
structural sentinels that every reaction participant may use without being a
tracked species. -/
def processTokens : List Str :=
  [str "", str "NAN", str "#", str "E-", str "e-", str "ELECTR", str "PHOTON",
   str "CRP", str "CRPHOT", str "FREEZE", str "CRH", str "PHOTD", str "THERM",
   str "XRAY", str "XRSEC", str "XRLYA", str "XRPHOT", str "DESOH2",
   str "DESCR", str "DEUVCR"]

/-- The keep-list (Functions.py:66-70): process tokens followed by the name
of every species in the supplied list. -/
def keepList (speciesList : List Species) : List Str :=
  processTokens ++ speciesList.map (·.name)

/-- Reaction-file dialect tag (the `ftype` argument of
`read_reaction_file`). -/
inductive FType where
  | UMIST
  | UCL
deriving DecidableEq, Repr

/-- One UMIST row (Functions.py:74-77): the row is accepted when fields
`row[2]`..`row[7]` all lie in the keep-list (Python materialises that list
first, so a row shorter than 8 fields raises `IndexError` — `none` here),
and the `Reaction` is built from `row[2:4]+['']+row[4:8]+row[9:]`. -/
def read_umist_rows (keep : List Str) : List (List Str) → Option (List Reaction)
  | [] => some []
  | row :: rest => do
    let c2 ← row[2]?
    let c3 ← row[3]?
    let c4 ← row[4]?
    let c5 ← row[5]?
    let c6 ← row[6]?
    let c7 ← row[7]?
    if [c2, c3, c4, c5, c6, c7].all (· ∈ keep) then do
      let r ← Reaction.init (((row.drop 2).take 2) ++ [str ""] ++
        ((row.drop 4).take 4) ++ row.drop 9)
      let tail ← read_umist_rows keep rest
      some (r :: tail)
    else read_umist_rows keep rest

/-- One UCL row (Functions.py:81-85): the row is accepted when the slice
`row[0:7]` lies in the keep-list (a slice, so a short row does *not* raise
here); then `row[10]` and `row[11]` are overwritten with the default
temperature range `0.0`/`10000.0` and the `Reaction` is built from the row.
For a row shorter than 12 fields Python raises `IndexError` at the
`row[10]=0.0` assignment; here `List.set` is a no-op out of range and the
failure instead surfaces as `none` inside `Reaction.init` — the observable
outcome (the read aborts) is the same. -/
def read_ucl_rows (keep : List Str) : List (List Str) → Option (List Reaction)
  | [] => some []
  | row :: rest =>
    if (row.take 7).all (· ∈ keep) then do
      let r ← Reaction.init ((row.set 10 (str "0.0")).set 11 (str "10000.0"))
      let tail ← read_ucl_rows keep rest
      some (r :: tail)
    else read_ucl_rows keep rest

/-- `read_reaction_file` (Functions.py:64-88): build the keep-list, filter
and parse the rows of the selected dialect, return `(nReactions,
reactions)`. -/
def read_reaction_file (ftype : FType) (rows : List (List Str))
    (speciesList : List Species) : Option (Nat × List Reaction) := do
  let keep := keepList speciesList
  let reactions ← match ftype with
    | .UMIST => read_umist_rows keep rows
    | .UCL => read_ucl_rows keep rows
  some (reactions.length, reactions)

/-- Whether a species takes part in a reaction (Functions.py:97): its name
occurs among the reactants or the products. -/
def inReaction (s : Species) (r : Reaction) : Bool :=
  s.name ∈ r.reactants ∨ s.name ∈ r.products

/-- The `keepFlag` scan of `filter_species` (Functions.py:95-98): true when
some reaction involves the species. -/
def appears (rl : List Reaction) (s : Species) : Bool :=
  rl.any (inReaction s)

/-- The orphan-removal loop of `filter_species` (Functions.py:94-101).
Python iterates over `speciesList` by an internal cursor while `remove`
shrinks the list in place; since the `Species` objects are pairwise distinct
objects, `speciesList.remove(species)` deletes exactly the cursor's element.
The cursor `c` advances every iteration, so a removal makes the following
element skip its check — faithfully reproduced here. -/
def orphan_go (rl : List Reaction) :
    Nat → Nat → List Species → List Str → List Species × List Str
  | 0, _, lst, lost => (lst, lost)
  | fuel + 1, c, lst, lost =>
    if h : c < lst.length then
      let s := lst.get ⟨c, h⟩
      if appears rl s then orphan_go rl fuel (c + 1) lst lost
      else orphan_go rl fuel (c + 1) (lst.eraseIdx c) (lost ++ [s.name])
    else (lst, lost)

/-- The orphan pass entry point: the cursor advances every iteration and the
list never grows, so `lst.length` iterations always reach the guard — the
fuel of `orphan_go` is never exhausted. -/
def orphan_pass (rl : List Reaction) (lst : List Species) :
    List Species × List Str :=
  orphan_go rl lst.length 0 lst []

/-- The body of the duplicate scan of `filter_species` (Functions.py:108-111)
at outer index `i`, inner index `j`: record `speciesList[i].name` when
`speciesList[j]` carries the same name at a different index and the name has
not been recorded yet. -/
def dup_scan_step (lst : List Species) (i : Nat) (acc : List Str) (j : Nat) :
    List Str :=
  match lst[i]?, lst[j]? with
  | some si, some sj =>
    if si.name = sj.name ∧ j ≠ i ∧ si.name ∉ acc then acc ++ [si.name] else acc
  | _, _ => acc

/-- The inner `for j in range(0,len(speciesList))` loop
(Functions.py:107-111). -/
def dup_scan_inner (lst : List Species) (i : Nat) (acc : List Str) : List Str :=
  (List.range lst.length).foldl (dup_scan_step lst i) acc

/-- The duplicate scan of `filter_species` (Functions.py:104-111): the two
`range(0,len(speciesList))` index loops are computed up front and the list
is not mutated while scanning, so they are plain folds over `List.range`.
A name is recorded once, when first seen at two distinct indices. -/
def dup_scan (lst : List Species) : List Str :=
  (List.range lst.length).foldl (fun acc i => dup_scan_inner lst i acc) []

/-- The per-duplicate removal `while` loop (Functions.py:113-122): walk the
list from the front and delete the first entry carrying the duplicated name.
The source loop presupposes the name is present (it would index out of range
otherwise); on the empty list this model returns the empty list. -/
def remove_first_by_name (d : Str) : List Species → List Species
  | [] => []
  | s :: rest => if s.name = d then rest else s :: remove_first_by_name d rest

/-- The removal pass over `duplicate_list` (Functions.py:113-122). -/
def dup_removal (dups : List Str) (lst : List Species) : List Species :=
  dups.foldl (fun l d => remove_first_by_name d l) lst

/-- `filter_species` (Functions.py:91-127): orphan removal followed by
duplicate detection and one removal per detected duplicate name.  The
returned triple carries the cleaned list, the `lostSpecies` report, and the
duplicate-removal report (one entry per `One entry of .. removed` print). -/
def filter_species (speciesList : List Species) (reactionList : List Reaction) :
    List Species × List Str × List Str :=
  let passed := orphan_pass reactionList speciesList
  let dups := dup_scan passed.1
  (dup_removal dups passed.1, passed.2, dups)

/-! ## Constituent analysis (`find_constituents`, Functions.py:171-218) -/

/-- The element table (Functions.py:172). -/
def elementList : List Str :=
  [str "H", str "D", str "HE", str "C", str "N", str "O", str "F", str "P",
   str "S", str "CL", str "LI", str "NA", str "MG", str "SI", str "PAH"]

/-- The atomic masses parallel to `elementList` (Functions.py:173). -/
def elementMass : List Nat :=
  [1, 2, 4, 12, 14, 16, 19, 31, 32, 35, 3, 23, 24, 28, 420]

/-- The structural symbols skipped by the scanner (Functions.py:174). -/
def structuralSymbols : List Char := ['#', '+', '-']

/-- `is_number` (Functions.py:220-225) applied to a single character: the
one-character strings Python's `float()` accepts are exactly the decimal
digits. -/
def is_number_char (c : Char) : Bool := c.isDigit

/-- The state of the character-scanning `while` loop of `find_constituents`:
cursor `i`, the Python local `j` (which the source never initialises and
never resets — `none` models "still unbound"), the `atoms` accumulator, and
whether the unknown-element diagnostic has been printed. -/
structure ConstState where
  i : Nat
  j : Option Nat
  atoms : List Str
  errored : Bool
deriving DecidableEq, Repr

/-- Outcome of one iteration of the scanning loop. -/
inductive ConstStep where
  /-- The loop guard failed: scanning is complete. -/
  | done (atoms : List Str) (errored : Bool)
  /-- One more iteration was executed. -/
  | more (st : ConstState)
  /-- Python evaluated `j > i` while `j` was still unbound (`NameError`). -/
  | nameError
deriving DecidableEq, Repr

/-- One iteration of the `while i < len(speciesName)` loop
(Functions.py:181-210), faithful to the source: `j` is only (re)assigned
when a one- or two-character element match succeeds, the digit following a
matched element multiplies it, and the unknown-element branch prints a
diagnostic without advancing `i`. -/
def const_step (name : Str) (st : ConstState) : ConstStep :=
  if h : st.i < name.length then
    let c := name.get ⟨st.i, h⟩
    if c ∈ structuralSymbols then .more { st with i := st.i + 1 }
    else
      let j' :=
        if st.i + 1 < name.length then
          if (name.drop st.i).take 2 ∈ elementList then some (st.i + 2)
          else if [c] ∈ elementList then some (st.i + 1)
          else st.j
        else
          if [c] ∈ elementList then some (st.i + 1) else st.j
      match j' with
      | none => .nameError
      | some j =>
        if j > st.i then
          let atom := (name.drop st.i).take (j - st.i)
          if hj : j < name.length then
            if is_number_char (name.get ⟨j, hj⟩) then
              let digitVal := (name.get ⟨j, hj⟩).toNat - '0'.toNat
              .more { i := j + 1, j := some j,
                      atoms := (st.atoms ++ [atom]) ++ List.replicate (digitVal - 1) atom,
                      errored := st.errored }
            else
              .more { i := j, j := some j, atoms := st.atoms ++ [atom],
                      errored := st.errored }
          else
            .more { i := j, j := some j, atoms := st.atoms ++ [atom],
                    errored := st.errored }
        else .more { st with j := some j, errored := true }
  else .done st.atoms st.errored

/-- Result of running the scanning loop under a fuel bound. -/
inductive ConstOut where
  /-- The fuel ran out before the loop guard failed. -/
  | outOfFuel
  /-- Python raised `NameError` (`j` unbound at `if j>i`). -/
  | nameError
  /-- The loop completed with these atoms and diagnostic flag. -/
  | ok (atoms : List Str) (errored : Bool)
deriving DecidableEq, Repr

/-- Run the scanning loop of `find_constituents` for at most `fuel`
iterations. -/
def const_run (name : Str) : Nat → ConstState → ConstOut
  | 0, _ => .outOfFuel
  | fuel + 1, st =>
    match const_step name st with
    | .done atoms errored => .ok atoms errored
    | .more st' => const_run name fuel st'
    | .nameError => .nameError

/-- Batch outcome of `find_constituents` over a species list. -/
inductive ConstBatch where
  /-- Some species' scanning loop exhausted the fuel bound. -/
  | outOfFuel
  /-- Some species' scanning loop raised `NameError`. -/
  | nameError
  /-- Every species was analysed; `n_atoms` has been assigned. -/
  | ok (speciesList : List Species)
deriving DecidableEq, Repr

/-- `find_constituents` (Functions.py:171-218), processing each species in
turn with the scanning loop and assigning `species.n_atoms = len(atoms)`.
The mass cross-check (Functions.py:212-217) only prints a diagnostic and is
not modelled (it parses the declared mass with `float()`). -/
def find_constituents (fuel : Nat) : List Species → ConstBatch
  | [] => .ok []
  | s :: rest =>
    match const_run s.name fuel ⟨0, none, [], false⟩ with
    | .outOfFuel => .outOfFuel
    | .nameError => .nameError
    | .ok atoms _err =>
      match find_constituents fuel rest with
      | .outOfFuel => .outOfFuel
      | .nameError => .nameError
      | .ok tail => .ok ({ s with n_atoms := some atoms.length } :: tail)

/-! ## File writers and ODE generation (Functions.py:231-469) -/

/-- Python's `str()` of a natural number: its decimal digits. -/
def pyStr (n : Nat) : Str := Nat.toDigits 10 n

/-- One output row of `write_species` (Functions.py:237):
`[species.name, species.mass, species.n_atoms]`.  Accessing `n_atoms` before
`find_constituents` has assigned it raises `AttributeError` in Python,
modelled as `none`. -/
def species_row (s : Species) : Option (List Str) := do
  let na ← s.n_atoms
  some [s.name, s.mass, pyStr na]

/-- The row loop of `write_species` (Functions.py:236-237), one output row
per species in list order. -/
def species_rows_go : List Species → Option (List (List Str))
  | [] => some []
  | s :: rest => do
    let r ← species_row s
    let tail ← species_rows_go rest
    some (r :: tail)

/-- `write_species` (Functions.py:231-237): the count header
`str(nSpecies+1)` (the `+1` reserves the electron slot) followed by one row
per species, in list order.  The header is returned without its trailing
newline. -/
def write_species (speciesList : List Species) : Option (Str × List (List Str)) := do
  let rows ← species_rows_go speciesList
  some (pyStr (speciesList.length + 1), rows)

/-- The ionic freeze-out test of `write_reactions` (Functions.py:247):
`'FREEZE' in reaction.reactants and reaction.reactants[0][-1]=='+'`.
Python would raise on an empty first reactant; `getLast? = none` is treated
as a failed comparison here (no claim involves an empty first reactant). -/
def ionic_freeze (r : Reaction) : Bool :=
  decide (str "FREEZE" ∈ r.reactants) &&
    (match r.reactants[0]? with
     | some first => first.getLast? == some '+'
     | none => false)

/-- One iteration of the `write_reactions` loop (Functions.py:245-249): the
in-place `reaction.beta=1` on ionic freeze-out rows happens *before* the row
is serialized, so both the emitted row and the surviving object carry the
new beta.  The accumulator carries the rows written so far and the list of
post-loop reaction objects. -/
def write_reactions_step (acc : List (List Str) × List Reaction) (r : Reaction) :
    List (List Str) × List Reaction :=
  let r' := if ionic_freeze r then { r with beta := str "1" } else r
  (acc.1 ++ [r'.reactants ++ r'.products ++
     [r'.alpha, r'.beta, r'.gamma, r'.templow, r'.temphigh]],
   acc.2 ++ [r'])

/-- `write_reactions` (Functions.py:240-249): count header, serialized rows,
and the reaction objects as they stand after the loop (Python mutates them
in place). -/
def write_reactions (reactionList : List Reaction) :
    Str × List (List Str) × List Reaction :=
  let (rows, post) := reactionList.foldl write_reactions_step ([], [])
  (pyStr reactionList.length, rows, post)

/-! ### `truncate_line` (Functions.py:430-459) -/

/-- The fixed-format column limit (Functions.py:431). -/
def lineLength : Nat := 72

/-- The continuation-line cap (Functions.py:432). -/
def maxlines : Nat := 30

/-- The continuation prefix `'     &       '` of Functions.py:455 (five
spaces, ampersand, seven spaces). -/
def contMarker : Str := str "     &       "

/-- Helper for `rfindChar`: scan with a running index, keeping the last
index `< stop` at which `c` occurs. -/
def rfindFrom (c : Char) (stop : Nat) : Str → Nat → Int → Int
  | [], _, best => best
  | x :: xs, i, best =>
    rfindFrom c stop xs (i + 1) (if x = c ∧ i < stop then (i : Int) else best)

/-- Python `input.rfind(c, 0, stop)`: the greatest index `< stop` holding
`c`, or `-1`. -/
def rfindChar (l : Str) (c : Char) (stop : Nat) : Int := rfindFrom c stop l 0 (-1)

/-- Python slice `l[:i]` with a possibly negative bound. -/
def pySliceTo (l : Str) (i : Int) : Str :=
  if 0 ≤ i then l.take i.toNat else l.take (l.length - (-i).toNat)

/-- Python slice `l[i:]` with a possibly negative bound. -/
def pySliceFrom (l : Str) (i : Int) : Str :=
  if 0 ≤ i then l.drop i.toNat else l.drop (l.length - (-i).toNat)

/-- Python `s.strip()`: drop leading and trailing whitespace. -/
def pyStrip (s : Str) : Str :=
  ((s.dropWhile (·.isWhitespace)).reverse.dropWhile (·.isWhitespace)).reverse

/-- The `codeFormat` tag of `truncate_line` and `electron_eq`. -/
inductive CodeFormat where
  | C
  | F90
  | F77
deriving DecidableEq, Repr

/-- The operator-search step of `truncate_line` (Functions.py:446): the
greatest index `< 72` holding `'+'`, `'-'`, `'*'` or `'/'`, as Python's
`max` of the four `rfind` results. -/
def opSplitIdx (cur : Str) : Int :=
  max (max (rfindChar cur '+' lineLength) (rfindChar cur '-' lineLength))
      (max (rfindChar cur '*' lineLength) (rfindChar cur '/' lineLength))

/-- The `while len(input) > lineLength` loop of `truncate_line`
(Functions.py:437-458), fuel-bounded.  `lines` is the continuation counter
*before* the increment at Functions.py:439; reaching `maxlines` starts a new
`lhs = lhs + rest` statement and resets the counter.  `none` marks fuel
exhaustion (the source loop does not terminate on all inputs: when the found
split index is below the 13-character continuation prefix the line grows). -/
def truncAux (cf : CodeFormat) (contCode : Option Str) (lhs : Str) :
    Nat → Nat → Str → Option Str
  | 0, _, cur => if cur.length ≤ lineLength then some cur else none
  | fuel + 1, lines, cur =>
    if cur.length ≤ lineLength then some cur
    else if lines + 1 = maxlines then
      let idx := max (rfindChar cur '+' lineLength) (rfindChar cur '-' lineLength)
      (truncAux cf contCode lhs fuel 0
          (lhs ++ ['='] ++ lhs ++ pySliceFrom cur idx)).map
        (fun rest => pySliceTo cur idx ++ ['\n'] ++ rest)
    else
      let idx := opSplitIdx cur
      let emitted :=
        if cf = CodeFormat.F90 then
          match contCode with
          | some cc => pySliceTo cur idx ++ [' '] ++ pyStrip cc ++ ['\n']
          | none => pySliceTo cur idx ++ str " &\n"
        else pySliceTo cur idx ++ ['\n']
      let next :=
        match contCode with
        | some cc => cc ++ pySliceFrom cur idx
        | none => contMarker ++ pySliceFrom cur idx
      (truncAux cf contCode lhs fuel (lines + 1) next).map
        (fun rest => emitted ++ rest)

/-- `truncate_line` (Functions.py:430-459) under an explicit fuel bound.
`input.index('=')` raises `ValueError` when no `'='` is present — `none`
here.  The loop itself cannot run more than `input.length` iterations when
every split index is at least 14 (each iteration then shortens the line), so
`truncate_line` below uses `input.length` as fuel. -/
def truncate_lineFuel (fuel : Nat) (cf : CodeFormat) (contCode : Option Str)
    (input : Str) : Option Str := do
  let idx ← input.findIdx? (· == '=')
  let lhs := input.take idx
  truncAux cf contCode lhs fuel 0 input

/-- `truncate_line` with its Python default arguments
(`codeFormat='F90'`, `continuationCode=None`). -/
def truncate_line (input : Str) : Option Str :=
  truncate_lineFuel input.length CodeFormat.F90 none input

/-! ### `electron_eq` (Functions.py:399-421) -/

/-- The accumulation loop of `electron_eq` (Functions.py:403-409).  A
species ending in `'+'` appends a `'+'` separator (when the string is
nonempty) and `Y(n+1)`; a species ending in `'-'` appends a `'-'` separator
(when the string is nonempty) and then — verbatim from Functions.py:409 —
the text `+Y(n+1)` with its leading plus.  Python's `name[-1]` raises on an
empty name, modelled as `none`. -/
def electron_eq_scan : List Species → Nat → Str → Option Str
  | [], _, acc => some acc
  | s :: rest, n, acc => do
    let last ← s.name.getLast?
    let acc :=
      if last = '+' then
        (if acc.length > 0 then acc ++ ['+'] else acc) ++
          str "Y(" ++ pyStr (n + 1) ++ str ")"
      else acc
    let acc :=
      if last = '-' then
        (if acc.length > 0 then acc ++ ['-'] else acc) ++
          str "+Y(" ++ pyStr (n + 1) ++ str ")"
      else acc
    electron_eq_scan rest (n + 1) acc

/-- `electron_eq` (Functions.py:399-421): wrap the accumulated balance in
the dialect's assignment statement (the electron slot is `Y(nSpecies+1)` in
F90), emitting the constant-zero statement when no species is charged, then
pass F77/F90 results through `truncate_line`. -/
def electron_eq (cf : CodeFormat) (speciesList : List Species) : Option Str := do
  let eq ← electron_eq_scan speciesList 0 []
  let nSpecies := speciesList.length
  let stmt :=
    if eq.length > 0 then
      match cf with
      | .C => str "  x_e = " ++ eq ++ str ";\n"
      | .F90 => str "      Y(" ++ pyStr (nSpecies + 1) ++ str ") = " ++ eq ++ str "\n"
      | .F77 => str "      X(1)  = " ++ eq ++ str "\n"
    else
      match cf with
      | .C => str "  x_e = 0;\n"
      | .F90 => str "      Y(" ++ pyStr (nSpecies + 1) ++ str ") = 0\n"
      | .F77 => str "      X(1)  = 0\n"
  match cf with
  | .F77 => truncate_lineFuel stmt.length .F77 none stmt
  | .F90 => truncate_lineFuel stmt.length .F90 none stmt
  | .C => some stmt

/-! ### `is_H2_formation` and the per-species ODE synthesis -/

/-- `is_H2_formation` (Functions.py:462-469).  Participants equal to the
*empty string* are not counted; the `'NAN'` sentinel **is** counted.  Python
indexes `reactants[0]`/`reactants[1]`/… unconditionally inside the pattern
tests; every caller passes the 3-reactant/4-product lists of a `Reaction`,
for which the lookups cannot fail. -/
def is_H2_formation (reactants products : List Str) : Bool :=
  let nReactants := (reactants.filter (fun s => !(s == str ""))).length
  let nProducts := (products.filter (fun s => !(s == str ""))).length
  if nReactants = 2 ∧ nProducts = 1 then
    decide (reactants[0]? = some (str "H") ∧ reactants[1]? = some (str "H") ∧
      products[0]? = some (str "H2"))
  else if nReactants = 3 ∧ nProducts = 2 then
    decide (reactants[0]? = some (str "H") ∧ reactants[1]? = some (str "H") ∧
      reactants[2]? = some (str "#") ∧ products[0]? = some (str "H2") ∧
      products[1]? = some (str "#"))
  else false

/-- `multiple` (Functions.py:425-427). -/
def multiple (number : Nat) : Str :=
  if number = 1 then [] else pyStr number ++ str "*"

/-- Iteration order of Python's `set(reaction.reactants)`
(Functions.py:280/318).  A Python 2 set iterates in a hash-determined,
implementation-defined order; this model fixes first-insertion order.  No
theorem below depends on the order chosen, only on the multiset of emitted
factors or on properties independent of the inner loop. -/
def pyset (l : List Str) : List Str :=
  l.foldl (fun acc x => if x ∈ acc then acc else acc ++ [x]) []

/-- The inner `for j,possibleReactants in enumerate(speciesList)` scan
(Functions.py:293-299 and 325-331): every index `j` whose species name
equals `reactant` contributes `nApp` copies of `*Y(j+1)` and bumps the
two-body counter by `nApp` (the trailing `continue` in the source is the
last statement of the `j` loop, so all matches contribute). -/
def yfactors_for (speciesList : List Species) (reactant : Str) (nApp : Nat) :
    Str × Nat :=
  speciesList.enum.foldl
    (fun (acc : Str × Nat) (p : Nat × Species) =>
      if p.2.name = reactant then
        (acc.1 ++ (List.replicate nApp
            (str "*Y(" ++ pyStr (p.1 + 1) ++ str ")")).flatten,
         acc.2 + nApp)
      else acc)
    ([], 0)

/-- One `reactant` of the loss-branch factor loop (Functions.py:280-299):
the species' own first occurrence is discounted (it is represented by the
`Y(i)*LOSS` factor of the derivative statement) but still counts one body;
an `E-` participant references the electron slot `Y(nSpecies+1)`. -/
def loss_factor_step (speciesList : List Species) (nSpecies : Nat)
    (selfName : Str) (reactants : List Str) (acc : Str × Nat)
    (reactant : Str) : Str × Nat :=
  let nApp := reactants.count reactant
  let nApp' := if reactant = selfName then nApp - 1 else nApp
  let twoBody := if reactant = selfName then acc.2 + 1 else acc.2
  if reactant = str "E-" then
    (acc.1 ++ (List.replicate nApp'
        (str "*Y(" ++ pyStr (nSpecies + 1) ++ str ")")).flatten,
     twoBody + nApp')
  else
    let (factors, bodies) := yfactors_for speciesList reactant nApp'
    (acc.1 ++ factors, twoBody + bodies)

/-- The complete loss-branch factor loop over `set(reaction.reactants)`,
starting from the per-reaction `twoBody = 0` (Functions.py:267). -/
def loss_factors (speciesList : List Species) (selfName : Str)
    (reactants : List Str) : Str × Nat :=
  (pyset reactants).foldl
    (loss_factor_step speciesList speciesList.length selfName reactants)
    ([], 0)

/-- One `reactant` of the production-branch factor loop
(Functions.py:318-331): identical to the loss branch but with no
self-discount. -/
def form_factor_step (speciesList : List Species) (nSpecies : Nat)
    (reactants : List Str) (acc : Str × Nat) (reactant : Str) : Str × Nat :=
  let nApp := reactants.count reactant
  if reactant = str "E-" then
    (acc.1 ++ (List.replicate nApp
        (str "*Y(" ++ pyStr (nSpecies + 1) ++ str ")")).flatten,
     acc.2 + nApp)
  else
    let (factors, bodies) := yfactors_for speciesList reactant nApp
    (acc.1 ++ factors, acc.2 + bodies)

/-- The complete production-branch factor loop; `twoBody0` is the counter
value left by the loss branch of the same reaction (Python keeps one
`twoBody` per reaction across both branches). -/
def form_factors (speciesList : List Species) (reactants : List Str)
    (twoBody0 : Nat) : Str × Nat :=
  (pyset reactants).foldl
    (form_factor_step speciesList speciesList.length reactants)
    ([], twoBody0)

/-- The density-scaling test of Functions.py:302/335: more than one body, or
a freeze-out or `DESOH2` participant. -/
def needsDensity (twoBody : Nat) (reactants : List Str) : Bool :=
  twoBody > 1 ∨ reactants.count (str "FREEZE") > 0 ∨
    reactants.count (str "DESOH2") > 0

/-- The production branch for one reaction (Functions.py:306-336).  The
H2-formation special case looks up the index of the first species named `H`
(Functions.py:309, `StopIteration` when absent — `none` here). -/
def ode_form_branch (speciesList : List Species) (sp : Species) (i : Nat)
    (r : Reaction) (form0 : Str) (twoBody : Nat) : Option Str :=
  if sp.name ∈ r.products then
    if is_H2_formation r.reactants r.products then do
      let hIdx ← speciesList.findIdx? (fun x => x.name == str "H")
      some (form0 ++ str "+RATE(" ++ pyStr (i + 1) ++ str ")*Y(" ++
        pyStr (hIdx + 1) ++ str ")*D")
    else
      let base := form0 ++ ['+'] ++ multiple (r.products.count sp.name) ++
        str "RATE(" ++ pyStr (i + 1) ++ str ")"
      let (factors, twoBody') := form_factors speciesList r.reactants twoBody
      some (if needsDensity twoBody' r.reactants then
        base ++ factors ++ str "*D" else base ++ factors)
  else some form0

/-- Processing of one enumerated reaction inside the per-species loop
(Functions.py:265-336): the loss branch runs first; its H2-formation special
case `continue`s past the production branch; otherwise the production branch
sees the `twoBody` count accumulated by the loss branch. -/
def ode_reaction_step (speciesList : List Species) (sp : Species)
    (acc : Str × Str) (ir : Nat × Reaction) : Option (Str × Str) :=
  let i := ir.1
  let r := ir.2
  if sp.name ∈ r.reactants then
    if is_H2_formation r.reactants r.products then
      some (acc.1 ++ str "-2*RATE(" ++ pyStr (i + 1) ++ str ")*D", acc.2)
    else
      let base := acc.1 ++ ['-'] ++ multiple (r.reactants.count sp.name) ++
        str "RATE(" ++ pyStr (i + 1) ++ str ")"
      let (factors, twoBody) := loss_factors speciesList sp.name r.reactants
      let loss := if needsDensity twoBody r.reactants then
        base ++ factors ++ str "*D" else base ++ factors
      (ode_form_branch speciesList sp i r acc.2 twoBody).map (fun form => (loss, form))
  else
    (ode_form_branch speciesList sp i r acc.2 0).map (fun form => (acc.1, form))

/-- The loss and production expression strings built for one species by the
scan over the whole enumerated reaction list (Functions.py:263-336). -/
def species_ode_strings (speciesList : List Species)
    (reactionList : List Reaction) (sp : Species) : Option (Str × Str) :=
  reactionList.enum.foldlM (ode_reaction_step speciesList sp) ([], [])

/-- The derivative statement built at Functions.py:345-351 for the species
at 0-based position `n`, before line wrapping: `YDOT(n+1)` assigned from the
nonempty subset of `PROD` and `Y(n+1)*LOSS`. -/
def ydot_string (lossRaw formRaw : Str) (n : Nat) : Str :=
  let ydot0 := str "      YDOT(" ++ pyStr (n + 1) ++ str ") = "
  let ydot1 := if formRaw ≠ [] then
      ydot0 ++ str "PROD" ++ (if lossRaw ≠ [] then str "+" else [])
    else ydot0
  let ydot2 := if lossRaw ≠ [] then
      ydot1 ++ str "Y(" ++ pyStr (n + 1) ++ str ")*LOSS"
    else ydot1
  ydot2 ++ str "\n"

/-- The text block emitted for the species at position `n`
(Functions.py:337-353): wrapped `LOSS`/`PROD` assignments when nonempty,
then the wrapped derivative statement. -/
def species_ode_block (speciesList : List Species)
    (reactionList : List Reaction) (n : Nat) (sp : Species) : Option Str := do
  let (lossRaw, formRaw) ← species_ode_strings speciesList reactionList sp
  let lossPart ← if lossRaw = [] then some ([] : Str)
    else truncate_line (str "      LOSS = " ++ lossRaw ++ str "\n")
  let formPart ← if formRaw = [] then some ([] : Str)
    else truncate_line (str "      PROD = " ++ formRaw ++ str "\n")
  let ydotPart ← truncate_line (ydot_string lossRaw formRaw n)
  some (lossPart ++ formPart ++ ydotPart)

/-- The `for n,species in enumerate(speciesList)` loop of `write_odes_f90`
(Functions.py:262-353), carrying the running index. -/
def ode_blocks_go (speciesList : List Species) (reactionList : List Reaction) :
    Nat → List Species → Option (List Str)
  | _, [] => some []
  | n, sp :: rest => do
    let b ← species_ode_block speciesList reactionList n sp
    let tail ← ode_blocks_go speciesList reactionList (n + 1) rest
    some (b :: tail)

/-- All per-species text blocks of `write_odes_f90`, in species-list
order. -/
def ode_blocks (speciesList : List Species) (reactionList : List Reaction) :
    Option (List Str) :=
  ode_blocks_go speciesList reactionList 0 speciesList

/-- `write_odes_f90` (Functions.py:251-354): the electron balance, a blank
line, then the per-species blocks in species-list order. -/
def write_odes_f90 (speciesList : List Species)
    (reactionList : List Reaction) : Option Str := do
  let head ← electron_eq .F90 speciesList
  let blocks ← ode_blocks speciesList reactionList
  some (head ++ str "\n" ++ blocks.flatten)

/-! ## Example data shared by the claim theorems -/

/-- A species as the loader builds it from a 7-field row with name `H`. -/
def sH : Species :=
  ⟨str "H", str "1", str "0", str "0", str "0", str "0", str "0", none⟩

/-- A species named `H2`. -/
def sH2 : Species :=
  ⟨str "H2", str "2", str "0", str "0", str "0", str "0", str "0", none⟩

/-- A species named `H+` (cation marker suffix). -/
def sHplus : Species :=
  ⟨str "H+", str "1", str "0", str "0", str "0", str "0", str "0", none⟩

/-- A species named `E-` (anion marker suffix). -/
def sEminus : Species :=
  ⟨str "E-", str "0", str "0", str "0", str "0", str "0", str "0", none⟩

/-- A species named `A`. -/
def sA : Species :=
  ⟨str "A", str "1", str "0", str "0", str "0", str "0", str "0", none⟩

/-- A species named `B`. -/
def sB : Species :=
  ⟨str "B", str "1", str "0", str "0", str "0", str "0", str "0", none⟩

/-- A species named `HX` — `H` parses, the trailing `X` matches no element
table entry. -/
def sHX : Species :=
  ⟨str "HX", str "1", str "0", str "0", str "0", str "0", str "0", none⟩

/-- A species named `X` — its very first segment matches no element table
entry. -/
def sX : Species :=
  ⟨str "X", str "1", str "0", str "0", str "0", str "0", str "0", none⟩

/-- A UCL-dialect reaction row for the canonical gas-phase H2 formation
`H + H -> H2` (third reactant and products 2-4 empty). -/
def h2GasRow : List Str :=
  [str "H", str "H", str "", str "H2", str "", str "", str "",
   str "1.0", str "0", str "0", str "0", str "10000"]

/-- A UCL-dialect reaction row for the grain-catalysed H2 formation
`H + H + # -> H2 + #`. -/
def h2GrainRow : List Str :=
  [str "H", str "H", str "#", str "H2", str "#", str "", str "",
   str "1.0", str "0", str "0", str "0", str "10000"]

/-- A reaction `A + PHOTON -> A`-shaped placeholder keeping species `A`
non-orphaned. -/
def rA : Reaction :=
  ⟨[str "A", str "PHOTON", str "NAN"],
   [str "A", str "NAN", str "NAN", str "NAN"],
   str "1", str "0", str "0", str "0", str "10000"⟩

/-- An ionic freeze-out reaction (`H+` first reactant, `FREEZE` present)
with `beta = 0.5` as loaded. -/
def rIonFreeze : Reaction :=
  ⟨[str "H+", str "FREEZE", str "NAN"],
   [str "#H", str "NAN", str "NAN", str "NAN"],
   str "1", str "0.5", str "0", str "0", str "10000"⟩

/-! ## C1 — the H2-formation special case on loader-built reactions -/

/-- C1 (code_bug): on every reaction constructed by the loader the
H2-formation special case is dead code.  `Reaction.__init__` pads the unused
third-reactant and product slots with the `'NAN'` sentinel, but
`is_H2_formation` only discounts participants equal to `''`; a loader-built
`H + H -> H2` therefore counts 3 reactants and 4 products and neither
pattern matches (`some false` below), even though the same participant lists
*without* the NAN padding do match (`true` below).  Consequently
`write_odes_f90` emits the generic multiplicity term
`-2*RATE(1)*Y(1)*D` (and `+RATE(1)*Y(1)*Y(1)*D`) instead of the fixed-form
density-coupled terms `-2*RATE(1)*D` / `+RATE(1)*Y(1)*D` the claim
describes. -/
theorem h2_special_case_never_fires :
    (Reaction.init h2GasRow).map
      (fun r => is_H2_formation r.reactants r.products) = some false ∧
    (Reaction.init h2GrainRow).map
      (fun r => is_H2_formation r.reactants r.products) = some false ∧
    is_H2_formation [str "H", str "H"] [str "H2"] = true ∧
    is_H2_formation [str "H", str "H", str "#"] [str "H2", str "#"] = true ∧
    is_H2_formation [str "H", str "H"] [str "H2", str "H"] = false ∧
    (do
      let r ← Reaction.init h2GasRow
      write_odes_f90 [sH, sH2] [r]) =
      some (str "      Y(3) = 0\n\n      LOSS = -2*RATE(1)*Y(1)*D\n      YDOT(1) = Y(1)*LOSS\n      PROD = +RATE(1)*Y(1)*Y(1)*D\n      YDOT(2) = PROD\n") := by
  refine ⟨rfl, rfl, rfl, rfl, rfl, rfl⟩

/-! ## C2 — sign synthesis in the electron balance -/

/-- C2 (code_bug): the anion branch of `electron_eq` (Functions.py:407-409)
appends the *text* `+Y(n+1)` after the `'-'` separator, so with species
`{H, H+, E-}` the emitted balance is `Y(2)-+Y(3)` rather than
`Y(2)-Y(3)`; when the anion is the first charged species the emitted term is
`+Y(1)` — a positive sign for an anion.  The constant-zero branch for a
fully neutral list does hold. -/
theorem electron_eq_anion_sign_wrong :
    electron_eq .F90 [sH, sHplus, sEminus] =
      some (str "      Y(4) = Y(2)-+Y(3)\n") ∧
    electron_eq .F90 [sEminus] = some (str "      Y(2) = +Y(1)\n") ∧
    electron_eq .F90 [sH, sH2] = some (str "      Y(3) = 0\n") := by
  refine ⟨rfl, rfl, rfl⟩

/-! ## C4 — termination of `find_constituents` -/

/-- The state in which the scanner of `find_constituents` wedges on the name
`HX`: the cursor sits on the unknown `X`, the stale `j` from the previous
match equals the cursor, and the unknown-element diagnostic has fired. -/
def hxStuck : ConstState := ⟨1, some 1, [str "H"], true⟩

/-- On `HX` the scanner's step function maps the stuck state to itself: the
unknown-element branch prints its diagnostic but never advances `i`. -/
theorem const_step_hx_fixpoint :
    const_step (str "HX") hxStuck = .more hxStuck := by decide

/-- No fuel bound lets the scanner leave the stuck state on `HX`. -/
theorem const_run_hx_stuck :
    ∀ f, const_run (str "HX") f hxStuck = .outOfFuel
  | 0 => rfl
  | f + 1 => by
    rw [const_run, const_step_hx_fixpoint]
    exact const_run_hx_stuck f

/-- Two scanner iterations take the initial state on `HX` to the stuck
state, hence the scanning loop never terminates. -/
theorem const_run_hx :
    ∀ f, const_run (str "HX") f ⟨0, none, [], false⟩ = .outOfFuel
  | 0 => rfl
  | 1 => rfl
  | f + 2 => by
    show const_run (str "HX") f hxStuck = .outOfFuel
    exact const_run_hx_stuck f

/-- C4 (code_bug): `find_constituents` does not terminate on a species whose
name has an unknown trailing segment, and aborts with a `NameError` when the
unknown segment comes first.  On `[HX, H]` the scanning `while` loop reaches
a state it can never leave (the unknown-element branch at Functions.py:207
prints its diagnostic without advancing `i`), so no fuel bound completes the
batch and the remaining species `H` is never analysed; on `[X]` the
uninitialised local `j` is read at `if j>i` (Functions.py:195) and the whole
batch aborts. -/
theorem find_constituents_diverges (fuel : Nat) :
    find_constituents fuel [sHX, sH] = .outOfFuel ∧
    find_constituents (fuel + 1) [sX, sH] = .nameError := by
  constructor
  · show (match const_run (str "HX") fuel ⟨0, none, [], false⟩ with
      | .outOfFuel => ConstBatch.outOfFuel
      | .nameError => ConstBatch.nameError
      | .ok atoms _err =>
        match find_constituents fuel [sH] with
        | .outOfFuel => ConstBatch.outOfFuel
        | .nameError => ConstBatch.nameError
        | .ok tail => ConstBatch.ok ({ sHX with n_atoms := some atoms.length } :: tail)) =
      ConstBatch.outOfFuel
    rw [const_run_hx fuel]
  · show (match const_run (str "X") (fuel + 1) ⟨0, none, [], false⟩ with
      | .outOfFuel => ConstBatch.outOfFuel
      | .nameError => ConstBatch.nameError
      | .ok atoms _err =>
        match find_constituents (fuel + 1) [sH] with
        | .outOfFuel => ConstBatch.outOfFuel
        | .nameError => ConstBatch.nameError
        | .ok tail => ConstBatch.ok ({ sX with n_atoms := some atoms.length } :: tail)) =
      ConstBatch.nameError
    have h : const_run (str "X") (fuel + 1) ⟨0, none, [], false⟩ = .nameError := by
      rw [const_run]
      rfl
    rw [h]

/-- Witness for C4's theorem at `fuel = 3`. -/
theorem find_constituents_diverges_witness :
    find_constituents 3 [sHX, sH] = .outOfFuel ∧
    find_constituents 4 [sX, sH] = .nameError :=
  find_constituents_diverges 3

/-! ## C5 — orphan removal -/

/-- C5 (code_bug): removing the current element while Python's `for`
iterator walks the same list skips the following element.  With the
two-orphan list `[A, B]` and no reactions, `A` is removed and reported but
`B` — also an orphan — survives the pass unexamined and unreported. -/
theorem filter_species_keeps_second_orphan :
    filter_species [sA, sB] [] = ([sB], [str "A"], []) ∧
    appears [] sB = false := by
  refine ⟨rfl, rfl⟩

/-! ## C8 — malformed input rows -/

/-- C8 (counterexample): a UCL reaction row with the wrong field count
(3 fields instead of 12) whose fields are not all in the keep-set is
silently dropped — the read succeeds with zero reactions and no error of any
kind, contradicting "malformed rows are never silently skipped" (and no
`MalformedRowError` exists anywhere in the code). -/
theorem malformed_reaction_row_silently_dropped :
    read_reaction_file .UCL [[str "X", str "Y", str "Z"]] [] = some (0, []) := by
  rfl

/-- C8 (amended): what the code actually does with wrong-arity rows.  A
short species row aborts the read with a bare `IndexError` (no file name,
line number or row content attached — modelled as `none`); a short UCL row
whose leading fields pass the keep-set test, and a short UMIST row, also
abort with a bare `IndexError`; but a short UCL row whose leading fields
fail the keep-set test is silently dropped. -/
theorem malformed_row_behaviour :
    read_species_file [[str "H", str "1"]] = none ∧
    read_reaction_file .UCL [[str "", str "", str ""]] [] = none ∧
    read_reaction_file .UMIST [[str "A", str "B"]] [] = none ∧
    read_reaction_file .UCL [[str "X", str "Y", str "Z"]] [] = some (0, []) := by
  refine ⟨rfl, rfl, rfl, rfl⟩

/-! ## C9 — mutation during `write_reactions` -/

/-- C9 (counterexample): `write_reactions` mutates the in-memory `Reaction`:
for the ionic freeze-out reaction `H+ + FREEZE -> #H` loaded with
`beta = 0.5`, the object surviving the write carries `beta = 1`. -/
theorem write_reactions_mutates_beta :
    (write_reactions [rIonFreeze]).2.2 ≠ [rIonFreeze] ∧
    ((write_reactions [rIonFreeze]).2.2.map (·.beta)) = [str "1"] ∧
    rIonFreeze.beta = str "0.5" := by
  refine ⟨by decide, rfl, rfl⟩

/-- The in-place update `write_reactions` performs on one reaction
(Functions.py:246-248). -/
def freeze_mut (r : Reaction) : Reaction :=
  if ionic_freeze r then { r with beta := str "1" } else r

/-- The serialized output row for one (already updated) reaction
(Functions.py:249). -/
def reaction_row (r : Reaction) : List Str :=
  r.reactants ++ r.products ++ [r.alpha, r.beta, r.gamma, r.templow, r.temphigh]

/-- Unfolding the `write_reactions` loop: rows and surviving objects are the
maps of `freeze_mut` over the input, appended to the accumulators. -/
theorem write_reactions_foldl (rl : List Reaction) :
    ∀ rows post,
      rl.foldl write_reactions_step (rows, post) =
        (rows ++ rl.map (fun r => reaction_row (freeze_mut r)),
         post ++ rl.map freeze_mut) := by
  induction rl with
  | nil => intro rows post; simp
  | cons r rest ih =>
    intro rows post
    simp only [List.foldl_cons, List.map_cons]
    rw [show write_reactions_step (rows, post) r =
      (rows ++ [reaction_row (freeze_mut r)], post ++ [freeze_mut r]) from rfl, ih]
    simp

/-- C9 (amended): `write_reactions` leaves every reaction unchanged *except*
that ionic freeze-out rows get `beta = 1` in memory; every non-beta field of
every reaction survives, a non-ionic-freeze-out reaction survives
identically, and the emitted rows serialize exactly the surviving
objects. -/
theorem write_reactions_frame (rl : List Reaction) :
    (∀ r ∈ rl, ionic_freeze r = false → r ∈ (write_reactions rl).2.2) ∧
    (write_reactions rl).2.2 = rl.map freeze_mut ∧
    (write_reactions rl).2.2.map Reaction.reactants = rl.map Reaction.reactants ∧
    (write_reactions rl).2.2.map Reaction.products = rl.map Reaction.products ∧
    (write_reactions rl).2.2.map Reaction.alpha = rl.map Reaction.alpha ∧
    (write_reactions rl).2.2.map Reaction.gamma = rl.map Reaction.gamma ∧
    (write_reactions rl).2.2.map Reaction.templow = rl.map Reaction.templow ∧
    (write_reactions rl).2.2.map Reaction.temphigh = rl.map Reaction.temphigh ∧
    (∀ r ∈ rl, ionic_freeze r = true →
      { r with beta := str "1" } ∈ (write_reactions rl).2.2) ∧
    (write_reactions rl).1 = pyStr rl.length ∧
    (write_reactions rl).2.1 = (write_reactions rl).2.2.map reaction_row := by
  have hpost : (write_reactions rl).2.2 = rl.map freeze_mut := by
    simp [write_reactions, write_reactions_foldl]
  have hrows : (write_reactions rl).2.1 =
      rl.map (fun r => reaction_row (freeze_mut r)) := by
    simp [write_reactions, write_reactions_foldl]
  refine ⟨?_, hpost, ?_, ?_, ?_, ?_, ?_, ?_, ?_, rfl, ?_⟩
  · intro r hr hni
    rw [hpost]
    have : freeze_mut r = r := by simp [freeze_mut, hni]
    exact this ▸ List.mem_map_of_mem freeze_mut hr
  · rw [hpost, List.map_map]
    refine List.map_congr_left (fun r _ => ?_)
    simp only [Function.comp_apply, freeze_mut]
    split <;> rfl
  · rw [hpost, List.map_map]
    refine List.map_congr_left (fun r _ => ?_)
    simp only [Function.comp_apply, freeze_mut]
    split <;> rfl
  · rw [hpost, List.map_map]
    refine List.map_congr_left (fun r _ => ?_)
    simp only [Function.comp_apply, freeze_mut]
    split <;> rfl
  · rw [hpost, List.map_map]
    refine List.map_congr_left (fun r _ => ?_)
    simp only [Function.comp_apply, freeze_mut]
    split <;> rfl
  · rw [hpost, List.map_map]
    refine List.map_congr_left (fun r _ => ?_)
    simp only [Function.comp_apply, freeze_mut]
    split <;> rfl
  · rw [hpost, List.map_map]
    refine List.map_congr_left (fun r _ => ?_)
    simp only [Function.comp_apply, freeze_mut]
    split <;> rfl
  · intro r hr hion
    rw [hpost]
    have : freeze_mut r = { r with beta := str "1" } := by simp [freeze_mut, hion]
    exact this ▸ List.mem_map_of_mem freeze_mut hr
  · rw [hrows, hpost, List.map_map]
    rfl

/-- Witness for C9's amended theorem: the non-ionic reaction `rA` survives
`write_reactions` untouched and the mutated ionic reaction is present. -/
theorem write_reactions_frame_witness :
    ionic_freeze rA = false ∧ rA ∈ (write_reactions [rIonFreeze, rA]).2.2 ∧
    ionic_freeze rIonFreeze = true ∧
    { rIonFreeze with beta := str "1" } ∈ (write_reactions [rIonFreeze, rA]).2.2 :=
  ⟨by decide,
   (write_reactions_frame [rIonFreeze, rA]).1 rA (by decide) (by decide),
   by decide,
   (write_reactions_frame [rIonFreeze, rA]).2.2.2.2.2.2.2.2.1 rIonFreeze
     (by decide) (by decide)⟩

/-! ## C6 — duplicate species removal -/

/-- C6 (counterexample): with a name occurring three times
(`[A, A, A]`, kept non-orphaned by a reaction), `filter_species` removes
only one occurrence — two copies of `A` remain in the returned list, so the
name is not unique, contradicting "removes all but one occurrence". -/
theorem triplicate_species_not_deduplicated :
    (filter_species [sA, sA, sA] [rA]).1 = [sA, sA] ∧
    (filter_species [sA, sA, sA] [rA]).2.2 = [str "A"] := by
  refine ⟨rfl, rfl⟩

/-- Number of species in a list carrying a given name. -/
def countName (d : Str) (lst : List Species) : Nat :=
  (lst.map Species.name).count d

/-- Two distinct positions holding the same value force a count of at least
two. -/
theorem two_le_count_of_getElem? (l : List Str) (i j : Nat) (x : Str)
    (hij : i ≠ j) (hi : l[i]? = some x) (hj : l[j]? = some x) :
    2 ≤ l.count x := by
  rcases List.getElem?_eq_some_iff.mp hi with ⟨hi', hix⟩
  rcases List.getElem?_eq_some_iff.mp hj with ⟨hj', hjx⟩
  -- reduce to the ordered case by symmetry
  rcases Nat.lt_or_ge i j with hlt | hge
  · have hcount : l.count x = (l.take j).count x + (l.drop j).count x := by
      conv_lhs => rw [← List.take_append_drop j l]
      exact List.count_append ..
    have h1 : 0 < (l.take j).count x := by
      rw [List.count_pos_iff]
      have hlen : i < (l.take j).length := by
        simp only [List.length_take]
        omega
      have : (l.take j)[i] = x := by
        rw [List.getElem_take]
        exact hix
      exact this ▸ List.getElem_mem hlen
    have h2 : 0 < (l.drop j).count x := by
      rw [List.count_pos_iff]
      have hlen : 0 < (l.drop j).length := by
        simp only [List.length_drop]
        omega
      have : (l.drop j)[0] = x := by
        simp only [List.getElem_drop]
        exact (by simpa using hjx)
      exact this ▸ List.getElem_mem hlen
    omega
  · have hgt : j < i := by omega
    have hcount : l.count x = (l.take i).count x + (l.drop i).count x := by
      conv_lhs => rw [← List.take_append_drop i l]
      exact List.count_append ..
    have h1 : 0 < (l.take i).count x := by
      rw [List.count_pos_iff]
      have hlen : j < (l.take i).length := by
        simp only [List.length_take]
        omega
      have : (l.take i)[j] = x := by
        rw [List.getElem_take]
        exact hjx
      exact this ▸ List.getElem_mem hlen
    have h2 : 0 < (l.drop i).count x := by
      rw [List.count_pos_iff]
      have hlen : 0 < (l.drop i).length := by
        simp only [List.length_drop]
        omega
      have : (l.drop i)[0] = x := by
        simp only [List.getElem_drop]
        exact (by simpa using hix)
      exact this ▸ List.getElem_mem hlen
    omega

/-- A count of at least two yields two distinct positions holding the
value. -/
theorem exists_pair_of_two_le_count {l : List Str} {x : Str}
    (h : 2 ≤ l.count x) :
    ∃ i j : Nat, i ≠ j ∧ l[i]? = some x ∧ l[j]? = some x := by
  induction l with
  | nil => simp [List.count_nil] at h
  | cons a t ih =>
    by_cases hax : a = x
    · have ht : 0 < t.count x := by
        rw [List.count_cons] at h
        have heq : (a == x) = true := by simpa using hax
        rw [heq] at h
        simp only [if_true] at h
        omega
      rcases List.mem_iff_getElem?.mp (List.count_pos_iff.mp ht) with ⟨k, hk⟩
      exact ⟨0, k + 1, by omega, by simp [hax], by simpa using hk⟩
    · have ht : 2 ≤ t.count x := by
        rw [List.count_cons] at h
        have heq : (a == x) = false := by simpa using hax
        rw [heq] at h
        simp only [Bool.false_eq_true, if_false] at h
        omega
      rcases ih ht with ⟨i, j, hij, hi, hj⟩
      exact ⟨i + 1, j + 1, by omega, by simpa using hi, by simpa using hj⟩

/-- Removing the first species with name `d` lowers the `d`-count by one
(`0 - 1 = 0` covers the absent case, where the source `while` loop would
have indexed out of range). -/
theorem countName_remove_self (d : Str) (l : List Species) :
    countName d (remove_first_by_name d l) = countName d l - 1 := by
  induction l with
  | nil => rfl
  | cons s rest ih =>
    by_cases h : s.name = d
    · rw [remove_first_by_name, if_pos h]
      simp only [countName, List.map_cons, List.count_cons]
      have heq : (s.name == d) = true := by simpa using h
      rw [heq]
      simp
    · rw [remove_first_by_name, if_neg h]
      simp only [countName, List.map_cons, List.count_cons]
      have hne : (s.name == d) = false := by simpa using h
      rw [hne]
      simp only [Bool.false_eq_true, if_false]
      have := ih
      simp only [countName] at this
      omega

/-- Removing the first species with a *different* name leaves the `d`-count
unchanged. -/
theorem countName_remove_ne {d e : Str} (hne : e ≠ d) (l : List Species) :
    countName d (remove_first_by_name e l) = countName d l := by
  induction l with
  | nil => rfl
  | cons s rest ih =>
    by_cases h : s.name = e
    · rw [remove_first_by_name, if_pos h]
      simp only [countName, List.map_cons, List.count_cons]
      have hne2 : (s.name == d) = false := by
        rw [h]
        simpa using hne
      rw [hne2]
      simp
    · rw [remove_first_by_name, if_neg h]
      simp only [countName, List.map_cons, List.count_cons]
      have := ih
      simp only [countName] at this
      omega

/-- Effect of the whole removal pass: one occurrence gone per reported name
(given the report has no repeated names). -/
theorem countName_dup_removal (dups : List Str) (hnd : dups.Nodup) :
    ∀ (lst : List Species) (d : Str),
      countName d (dup_removal dups lst) =
        countName d lst - (if d ∈ dups then 1 else 0) := by
  induction dups with
  | nil => intro lst d; simp [dup_removal]
  | cons h t ih =>
    intro lst d
    have hnd' : t.Nodup := hnd.of_cons
    have hh : h ∉ t := (List.nodup_cons.mp hnd).1
    have hstep : dup_removal (h :: t) lst = dup_removal t (remove_first_by_name h lst) := rfl
    rw [hstep, ih hnd']
    by_cases hd : d = h
    · subst hd
      rw [countName_remove_self]
      simp [hh]
    · rw [countName_remove_ne (fun he => hd he.symm)]
      simp [List.mem_cons, hd]

/-- Membership is preserved by one duplicate-scan step. -/
theorem dup_step_preserves_mem {lst : List Species} {i : Nat} {acc : List Str}
    {x : Str} (hx : x ∈ acc) (j : Nat) : x ∈ dup_scan_step lst i acc j := by
  unfold dup_scan_step
  split
  · split
    · exact List.mem_append_left _ hx
    · exact hx
  · exact hx

/-- Membership is preserved by the inner duplicate-scan fold. -/
theorem dup_inner_fold_preserves_mem (lst : List Species) (i : Nat)
    (js : List Nat) :
    ∀ acc x, x ∈ acc → x ∈ js.foldl (dup_scan_step lst i) acc := by
  induction js with
  | nil => intro acc x hx; exact hx
  | cons j js ih => intro acc x hx; exact ih _ _ (dup_step_preserves_mem hx j)

/-- Everything the inner fold adds is a name with count at least two. -/
theorem dup_inner_fold_sound (lst : List Species) (i : Nat) (js : List Nat) :
    ∀ acc x, x ∈ js.foldl (dup_scan_step lst i) acc →
      x ∈ acc ∨ 2 ≤ countName x lst := by
  induction js with
  | nil => intro acc x hx; exact Or.inl hx
  | cons j js ih =>
    intro acc x hx
    rcases ih _ _ hx with h | h
    · unfold dup_scan_step at h
      split at h
      case h_1 si sj hi hj =>
        split at h
        case isTrue hcond =>
          rcases List.mem_append.mp h with h' | h'
          · exact Or.inl h'
          · have hx' : x = si.name := by simpa using h'
            subst hx'
            refine Or.inr (two_le_count_of_getElem? _ j i _
              hcond.2.1 ?_ ?_)
            · rw [List.getElem?_map, hj, Option.map_some']
              exact congrArg some hcond.1.symm
            · rw [List.getElem?_map, hi, Option.map_some']
        case isFalse => exact Or.inl h
      case h_2 => exact Or.inl h
    · exact Or.inr h

/-- If a second index witnesses the duplicate, the inner fold records the
name (or it was recorded already). -/
theorem dup_inner_fold_adds (lst : List Species) (i : Nat) (js : List Nat) :
    ∀ acc x si sj j, lst[i]? = some si → si.name = x → j ∈ js → j ≠ i →
      lst[j]? = some sj → sj.name = x →
      x ∈ js.foldl (dup_scan_step lst i) acc := by
  induction js with
  | nil => intro _ _ _ _ _ _ _ hj; exact absurd hj (List.not_mem_nil _)
  | cons j0 js ih =>
    intro acc x si sj j hi hxi hj hjne hjget hxj
    rcases List.mem_cons.mp hj with rfl | hmem
    · subst hxi
      have hred : dup_scan_step lst i acc j =
          if si.name = sj.name ∧ j ≠ i ∧ si.name ∉ acc then acc ++ [si.name]
          else acc := by
        unfold dup_scan_step
        rw [hi, hjget]
      have hstep : si.name ∈ dup_scan_step lst i acc j := by
        rw [hred]
        by_cases hacc : si.name ∈ acc
        · split
          · exact List.mem_append_left _ hacc
          · exact hacc
        · have hcond : si.name = sj.name ∧ j ≠ i ∧ si.name ∉ acc :=
            ⟨hxj.symm, hjne, hacc⟩
          rw [if_pos hcond]
          exact List.mem_append_right _ (by simp)
      exact dup_inner_fold_preserves_mem lst i js _ _ hstep
    · exact ih _ x si sj j hi hxi hmem hjne hjget hxj

/-- Membership is preserved by the outer duplicate-scan fold. -/
theorem dup_outer_fold_preserves_mem (lst : List Species) (is : List Nat) :
    ∀ acc x, x ∈ acc →
      x ∈ is.foldl (fun acc i => dup_scan_inner lst i acc) acc := by
  induction is with
  | nil => intro acc x hx; exact hx
  | cons i is ih =>
    intro acc x hx
    exact ih _ _ (dup_inner_fold_preserves_mem lst i _ _ _ hx)

/-- Everything the outer fold adds is a name with count at least two. -/
theorem dup_outer_fold_sound (lst : List Species) (is : List Nat) :
    ∀ acc x, x ∈ is.foldl (fun acc i => dup_scan_inner lst i acc) acc →
      x ∈ acc ∨ 2 ≤ countName x lst := by
  induction is with
  | nil => intro acc x hx; exact Or.inl hx
  | cons i is ih =>
    intro acc x hx
    rcases ih _ _ hx with h | h
    · exact dup_inner_fold_sound lst i _ _ _ h
    · exact Or.inr h

/-- If indices `i ∈ is` and `j ≠ i` witness a duplicated name, the outer
fold records it. -/
theorem dup_outer_fold_adds (lst : List Species) (is : List Nat) :
    ∀ acc x si sj i j, i ∈ is → lst[i]? = some si → si.name = x → j ≠ i →
      lst[j]? = some sj → sj.name = x →
      x ∈ is.foldl (fun acc i => dup_scan_inner lst i acc) acc := by
  induction is with
  | nil => intro _ _ _ _ _ _ hi; exact absurd hi (List.not_mem_nil _)
  | cons i0 is ih =>
    intro acc x si sj i j hi hig hxi hjne hjg hxj
    rcases List.mem_cons.mp hi with rfl | hmem
    · have hjlt : j < lst.length := (List.getElem?_eq_some_iff.mp hjg).1
      have hinner : x ∈ dup_scan_inner lst i acc :=
        dup_inner_fold_adds lst i (List.range lst.length) acc x si sj j hig
          hxi (List.mem_range.mpr hjlt) hjne hjg hxj
      exact dup_outer_fold_preserves_mem lst is _ _ hinner
    · exact ih _ x si sj i j hmem hig hxi hjne hjg hxj

/-- `dup_scan` records exactly the names occurring at least twice. -/
theorem dup_scan_iff (lst : List Species) (x : Str) :
    x ∈ dup_scan lst ↔ 2 ≤ countName x lst := by
  constructor
  · intro hx
    rcases dup_outer_fold_sound lst (List.range lst.length) [] x hx with h | h
    · exact absurd h (List.not_mem_nil _)
    · exact h
  · intro hx
    rcases exists_pair_of_two_le_count hx with ⟨i, j, hij, hi, hj⟩
    rw [List.getElem?_map] at hi hj
    rcases Option.map_eq_some.mp hi with ⟨si, hig, hxi⟩
    rcases Option.map_eq_some.mp hj with ⟨sj, hjg, hxj⟩
    have hilt : i < lst.length := (List.getElem?_eq_some_iff.mp hig).1
    exact dup_outer_fold_adds lst (List.range lst.length) [] x si sj i j
      (List.mem_range.mpr hilt) hig hxi (fun h => hij (h ▸ rfl)) hjg hxj

/-- One duplicate-scan step preserves `Nodup` (a name is only appended when
absent). -/
theorem dup_step_nodup {lst : List Species} {i : Nat} {acc : List Str}
    (h : acc.Nodup) (j : Nat) : (dup_scan_step lst i acc j).Nodup := by
  unfold dup_scan_step
  split
  · split
    case isTrue hcond =>
      rw [← List.concat_eq_append]
      exact List.Nodup.concat hcond.2.2 h
    case isFalse => exact h
  · exact h

/-- The inner fold preserves `Nodup`. -/
theorem dup_inner_fold_nodup (lst : List Species) (i : Nat) (js : List Nat) :
    ∀ acc, acc.Nodup → (js.foldl (dup_scan_step lst i) acc).Nodup := by
  induction js with
  | nil => intro acc h; exact h
  | cons j js ih => intro acc h; exact ih _ (dup_step_nodup h j)

/-- The outer fold preserves `Nodup`, so the duplicate report never repeats
a name. -/
theorem dup_scan_nodup (lst : List Species) : (dup_scan lst).Nodup := by
  have : ∀ (is : List Nat) (acc : List Str), acc.Nodup →
      (is.foldl (fun acc i => dup_scan_inner lst i acc) acc).Nodup := by
    intro is
    induction is with
    | nil => intro acc h; exact h
    | cons i is ih =>
      intro acc h
      exact ih _ (dup_inner_fold_nodup lst i _ _ h)
  exact this (List.range lst.length) [] List.nodup_nil

/-- C6 (amended): `filter_species` removes *exactly one* occurrence of each
duplicated name — a name is reported iff it occurs at least twice in the
post-orphan list, each reported name is reported once, and the returned
list's count for a reported name is the original count minus one (so a name
occurring twice becomes unique, but `k > 2` occurrences leave `k - 1`
copies). -/
theorem filter_species_one_removal_per_duplicate
    (speciesList : List Species) (reactionList : List Reaction) :
    (∀ d, d ∈ (filter_species speciesList reactionList).2.2 ↔
      2 ≤ countName d (orphan_pass reactionList speciesList).1) ∧
    (filter_species speciesList reactionList).2.2.Nodup ∧
    (∀ d, countName d (filter_species speciesList reactionList).1 =
      if d ∈ (filter_species speciesList reactionList).2.2 then
        countName d (orphan_pass reactionList speciesList).1 - 1
      else countName d (orphan_pass reactionList speciesList).1) := by
  refine ⟨fun d => dup_scan_iff _ d, dup_scan_nodup _, fun d => ?_⟩
  have h := countName_dup_removal (dup_scan (orphan_pass reactionList speciesList).1)
    (dup_scan_nodup _) (orphan_pass reactionList speciesList).1 d
  by_cases hd : d ∈ dup_scan (orphan_pass reactionList speciesList).1
  · simpa [filter_species, hd] using h
  · simpa [filter_species, hd] using h

/-! ## C7 — loaded participants are tokens or retained species -/

/-- Destructuring for the `Option` monadic bind. -/
theorem option_bind_some {α β : Type} {x : Option α} {f : α → Option β} {b : β}
    (h : (x >>= f) = some b) : ∃ a, x = some a ∧ f a = some b := by
  cases x with
  | none => exact absurd h (by simp)
  | some a => exact ⟨a, rfl, h⟩

/-- Every participant slot of a constructed `Reaction` is either the `NAN`
sentinel introduced by `NANCheck` or one of the first seven cells of the
input row. -/
theorem reaction_init_slots {inputRow : List Str} {r : Reaction}
    (h : Reaction.init inputRow = some r) :
    ∀ x ∈ r.reactants ++ r.products,
      x = str "NAN" ∨ ∃ k, k < 7 ∧ inputRow[k]? = some x := by
  unfold Reaction.init at h
  rcases option_bind_some h with ⟨f0, h0, h⟩
  rcases option_bind_some h with ⟨f1, h1, h⟩
  rcases option_bind_some h with ⟨f2, h2, h⟩
  rcases option_bind_some h with ⟨f3, h3, h⟩
  rcases option_bind_some h with ⟨f4, h4, h⟩
  rcases option_bind_some h with ⟨f5, h5, h⟩
  rcases option_bind_some h with ⟨f6, h6, h⟩
  rcases option_bind_some h with ⟨f7, h7, h⟩
  rcases option_bind_some h with ⟨f8, h8, h⟩
  rcases option_bind_some h with ⟨f9, h9, h⟩
  rcases option_bind_some h with ⟨f10, h10, h⟩
  rcases option_bind_some h with ⟨f11, h11, h⟩
  have hr := Option.some.inj h
  subst hr
  intro x hx
  have hnan : ∀ (f : Str) (k : Nat), k < 7 → inputRow[k]? = some f →
      NANCheck f = x → x = str "NAN" ∨ ∃ k, k < 7 ∧ inputRow[k]? = some x := by
    intro f k hk hkget hfx
    unfold NANCheck at hfx
    split at hfx
    · exact Or.inl hfx.symm
    · exact Or.inr ⟨k, hk, hfx ▸ hkget⟩
  simp only [List.mem_append, List.mem_cons, List.not_mem_nil, or_false] at hx
  rcases hx with (rfl | rfl | rfl) | (rfl | rfl | rfl | rfl)
  · exact Or.inr ⟨0, by omega, h0⟩
  · exact Or.inr ⟨1, by omega, h1⟩
  · exact hnan f2 2 (by omega) h2 rfl
  · exact Or.inr ⟨3, by omega, h3⟩
  · exact hnan f4 4 (by omega) h4 rfl
  · exact hnan f5 5 (by omega) h5 rfl
  · exact hnan f6 6 (by omega) h6 rfl

/-- Every non-`NAN` participant of every reaction kept from a UMIST file is
the synthesized empty third reactant or a keep-list member. -/
theorem read_umist_rows_slots (keep : List Str) :
    ∀ rows rl, read_umist_rows keep rows = some rl →
      ∀ r ∈ rl, ∀ x ∈ r.reactants ++ r.products,
        x = str "NAN" ∨ x = str "" ∨ x ∈ keep := by
  intro rows
  induction rows with
  | nil =>
    intro rl h r hr
    have h' : ([] : List Reaction) = rl := Option.some.inj h
    subst h'
    exact absurd hr (List.not_mem_nil r)
  | cons row rest ih =>
    intro rl h r hr
    unfold read_umist_rows at h
    rcases option_bind_some h with ⟨c2, h2, h⟩
    rcases option_bind_some h with ⟨c3, h3, h⟩
    rcases option_bind_some h with ⟨c4, h4, h⟩
    rcases option_bind_some h with ⟨c5, h5, h⟩
    rcases option_bind_some h with ⟨c6, h6, h⟩
    rcases option_bind_some h with ⟨c7, h7, h⟩
    split at h
    case isTrue hall =>
      rcases option_bind_some h with ⟨r0, hinit, h⟩
      rcases option_bind_some h with ⟨tail, htail, h⟩
      have hrl := Option.some.inj h
      subst hrl
      rcases List.mem_cons.mp hr with rfl | hmem
      · intro x hx
        rcases reaction_init_slots hinit x hx with hx' | ⟨k, hk, hkget⟩
        · exact Or.inl hx'
        · have l7 : 7 < row.length := (List.getElem?_eq_some_iff.mp h7).1
          have hd2 : row.drop 2 = c2 :: c3 :: row.drop 4 := by
            rw [List.drop_eq_getElem_cons (by omega),
              List.drop_eq_getElem_cons (l := row) (by omega)]
            have e2 : row[2] = c2 := by
              rcases List.getElem?_eq_some_iff.mp h2 with ⟨_, e⟩
              exact e
            have e3 : row[3] = c3 := by
              rcases List.getElem?_eq_some_iff.mp h3 with ⟨_, e⟩
              exact e
            rw [e2, e3]
          have hd4 : row.drop 4 = c4 :: c5 :: c6 :: c7 :: row.drop 8 := by
            rw [List.drop_eq_getElem_cons (by omega),
              List.drop_eq_getElem_cons (l := row) (by omega),
              List.drop_eq_getElem_cons (l := row) (by omega),
              List.drop_eq_getElem_cons (l := row) (by omega)]
            have e4 : row[4] = c4 := by
              rcases List.getElem?_eq_some_iff.mp h4 with ⟨_, e⟩
              exact e
            have e5 : row[5] = c5 := by
              rcases List.getElem?_eq_some_iff.mp h5 with ⟨_, e⟩
              exact e
            have e6 : row[6] = c6 := by
              rcases List.getElem?_eq_some_iff.mp h6 with ⟨_, e⟩
              exact e
            have e7 : row[7] = c7 := by
              rcases List.getElem?_eq_some_iff.mp h7 with ⟨_, e⟩
              exact e
            rw [e4, e5, e6, e7]
          have hkeep : ∀ y ∈ [c2, c3, c4, c5, c6, c7], y ∈ keep := by
            simpa using hall
          have hshape : ((row.drop 2).take 2) ++ [str ""] ++
              ((row.drop 4).take 4) ++ row.drop 9 =
              c2 :: c3 :: str "" :: c4 :: c5 :: c6 :: c7 :: row.drop 9 := by
            rw [hd2, hd4]
            rfl
          rw [hshape] at hkget
          interval_cases k
          · have := Option.some.inj hkget
            subst this
            exact Or.inr (Or.inr (hkeep _ (by simp)))
          · simp only [List.getElem?_cons_succ, List.getElem?_cons_zero] at hkget
            have := Option.some.inj hkget
            subst this
            exact Or.inr (Or.inr (hkeep _ (by simp)))
          · simp only [List.getElem?_cons_succ, List.getElem?_cons_zero] at hkget
            have := Option.some.inj hkget
            subst this
            exact Or.inr (Or.inl rfl)
          · simp only [List.getElem?_cons_succ, List.getElem?_cons_zero] at hkget
            have := Option.some.inj hkget
            subst this
            exact Or.inr (Or.inr (hkeep _ (by simp)))
          · simp only [List.getElem?_cons_succ, List.getElem?_cons_zero] at hkget
            have := Option.some.inj hkget
            subst this
            exact Or.inr (Or.inr (hkeep _ (by simp)))
          · simp only [List.getElem?_cons_succ, List.getElem?_cons_zero] at hkget
            have := Option.some.inj hkget
            subst this
            exact Or.inr (Or.inr (hkeep _ (by simp)))
          · simp only [List.getElem?_cons_succ, List.getElem?_cons_zero] at hkget
            have := Option.some.inj hkget
            subst this
            exact Or.inr (Or.inr (hkeep _ (by simp)))
      · exact ih tail htail r hmem
    case isFalse => exact ih rl h r hr

/-- Every non-`NAN` participant of every reaction kept from a UCL file is in
the keep-list (the empty-string disjunct is kept for symmetry with the UMIST
lemma; it does not arise here). -/
theorem read_ucl_rows_slots (keep : List Str) :
    ∀ rows rl, read_ucl_rows keep rows = some rl →
      ∀ r ∈ rl, ∀ x ∈ r.reactants ++ r.products,
        x = str "NAN" ∨ x = str "" ∨ x ∈ keep := by
  intro rows
  induction rows with
  | nil =>
    intro rl h r hr
    have h' : ([] : List Reaction) = rl := Option.some.inj h
    subst h'
    exact absurd hr (List.not_mem_nil r)
  | cons row rest ih =>
    intro rl h r hr
    unfold read_ucl_rows at h
    split at h
    case isTrue hall =>
      rcases option_bind_some h with ⟨r0, hinit, h⟩
      rcases option_bind_some h with ⟨tail, htail, h⟩
      have hrl := Option.some.inj h
      subst hrl
      rcases List.mem_cons.mp hr with rfl | hmem
      · intro x hx
        rcases reaction_init_slots hinit x hx with hx' | ⟨k, hk, hkget⟩
        · exact Or.inl hx'
        · have hset : ((row.set 10 (str "0.0")).set 11 (str "10000.0"))[k]? =
              row[k]? := by
            rw [List.getElem?_set_ne (by omega), List.getElem?_set_ne (by omega)]
          rw [hset] at hkget
          have hmemtake : x ∈ row.take 7 := by
            refine List.mem_iff_getElem?.mpr ⟨k, ?_⟩
            rw [List.getElem?_take, if_pos hk]
            exact hkget
          have hkeep : ∀ y ∈ row.take 7, y ∈ keep := by
            simpa using hall
          exact Or.inr (Or.inr (hkeep x hmemtake))
      · exact ih tail htail r hmem
    case isFalse => exact ih rl h r hr

/-- Every participant of every loaded reaction, either dialect, is `NAN` or
a member of the keep-list built from the species list handed to the loader
(the empty string is itself a keep-list member). -/
theorem read_reaction_file_slots {ftype : FType} {rows : List (List Str)}
    {speciesList : List Species} {nr : Nat} {rl : List Reaction}
    (h : read_reaction_file ftype rows speciesList = some (nr, rl)) :
    ∀ r ∈ rl, ∀ x ∈ r.reactants ++ r.products,
      x = str "NAN" ∨ x ∈ keepList speciesList := by
  have hempty : str "" ∈ keepList speciesList :=
    List.mem_append_left _ (by decide)
  cases ftype with
  | UMIST =>
    unfold read_reaction_file at h
    rcases option_bind_some h with ⟨rl', hrl', hsome⟩
    have hp := Option.some.inj hsome
    have hrl2 : rl' = rl := congrArg Prod.snd hp
    subst hrl2
    intro r hrm x hx
    rcases read_umist_rows_slots (keepList speciesList) rows rl' hrl' r hrm x hx
      with h1 | h1 | h1
    · exact Or.inl h1
    · exact Or.inr (h1 ▸ hempty)
    · exact Or.inr h1
  | UCL =>
    unfold read_reaction_file at h
    rcases option_bind_some h with ⟨rl', hrl', hsome⟩
    have hp := Option.some.inj hsome
    have hrl2 : rl' = rl := congrArg Prod.snd hp
    subst hrl2
    intro r hrm x hx
    rcases read_ucl_rows_slots (keepList speciesList) rows rl' hrl' r hrm x hx
      with h1 | h1 | h1
    · exact Or.inl h1
    · exact Or.inr (h1 ▸ hempty)
    · exact Or.inr h1

/-- The orphan pass never drops a species whose name occurs in some
reaction: the erased element is always one whose name occurs in none. -/
theorem orphan_go_preserves (rl : List Reaction) :
    ∀ (fuel c : Nat) (lst : List Species) (lost : List Str) (n : Str),
      (∃ s ∈ lst, s.name = n) →
      (∃ r ∈ rl, n ∈ r.reactants ∨ n ∈ r.products) →
      ∃ s ∈ (orphan_go rl fuel c lst lost).1, s.name = n := by
  intro fuel
  induction fuel with
  | zero => intro c lst lost n hs _; exact hs
  | succ fuel ih =>
    intro c lst lost n hs hn
    by_cases hc : c < lst.length
    · rw [orphan_go, dif_pos hc]
      by_cases happ : appears rl (lst.get ⟨c, hc⟩) = true
      · rw [if_pos happ]
        exact ih _ _ _ n hs hn
      · rw [if_neg happ]
        refine ih _ _ _ n ?_ hn
        rcases hs with ⟨s, hmem, hname⟩
        have hsapp : appears rl s = true := by
          subst hname
          simp only [appears, List.any_eq_true]
          rcases hn with ⟨r, hr, hor⟩
          exact ⟨r, hr, by simpa [inReaction] using hor⟩
        have hse : s ≠ lst.get ⟨c, hc⟩ := by
          intro he
          rw [← he] at happ
          exact happ hsapp
        rcases List.mem_iff_getElem?.mp hmem with ⟨m, hmget⟩
        have hmc : m ≠ c := by
          intro he
          subst he
          rcases List.getElem?_eq_some_iff.mp hmget with ⟨hm, hms⟩
          exact hse (by rw [← hms]; rfl)
        exact ⟨s, List.mem_eraseIdx_iff_getElem?.mpr ⟨m, hmc, hmget⟩, hname⟩
    · rw [orphan_go, dif_neg hc]
      exact hs

/-- C7 (confirmed): after loading (`read_species_file`,
`read_reaction_file`) and validation (`filter_species`), every reactant or
product slot of every retained reaction that is neither empty nor the `NAN`
sentinel is a process token or the name of a species in the final list. -/
theorem loaded_participants_in_final_table
    (ftype : FType) (specRows reacRows : List (List Str))
    (ns : Nat) (sl : List Species) (nr : Nat) (rl : List Reaction)
    (_hs : read_species_file specRows = some (ns, sl))
    (hr : read_reaction_file ftype reacRows sl = some (nr, rl)) :
    ∀ r ∈ rl, ∀ x ∈ r.reactants ++ r.products,
      x ≠ str "" → x ≠ str "NAN" →
      x ∈ processTokens ∨
        x ∈ (filter_species sl rl).1.map Species.name := by
  intro r hrm x hx _hne hnan
  rcases read_reaction_file_slots hr r hrm x hx with h | h
  · exact absurd h hnan
  · rcases List.mem_append.mp h with h | h
    · exact Or.inl h
    · rcases List.mem_map.mp h with ⟨s, hsmem, hsname⟩
      have happ : ∃ r' ∈ rl, x ∈ r'.reactants ∨ x ∈ r'.products :=
        ⟨r, hrm, List.mem_append.mp hx⟩
      have hmid := orphan_go_preserves rl sl.length 0 sl [] x
        ⟨s, hsmem, hsname⟩ happ
      have hmidmem : x ∈ ((orphan_pass rl sl).1).map Species.name := by
        rcases hmid with ⟨s', hs', hn'⟩
        exact List.mem_map.mpr ⟨s', hs', hn'⟩
      have hcount : 0 < countName x (orphan_pass rl sl).1 :=
        List.count_pos_iff.mpr hmidmem
      have hfinal := (filter_species_one_removal_per_duplicate sl rl).2.2 x
      refine Or.inr (List.count_pos_iff.mp ?_)
      show 0 < countName x (filter_species sl rl).1
      rw [hfinal]
      by_cases hdup : x ∈ (filter_species sl rl).2.2
      · rw [if_pos hdup]
        have h2 : 2 ≤ countName x (orphan_pass rl sl).1 :=
          ((filter_species_one_removal_per_duplicate sl rl).1 x).mp hdup
        omega
      · rw [if_neg hdup]
        exact hcount

/-- The reaction the UCL loader builds from `h2GasRow` against the
`[H, H2]` species list: NAN-padded slots and the overwritten default
temperature range. -/
def rH2loaded : Reaction :=
  ⟨[str "H", str "H", str "NAN"],
   [str "H2", str "NAN", str "NAN", str "NAN"],
   str "1.0", str "0", str "0", str "0.0", str "10000.0"⟩

/-- Witness for C7 at the two-species H/H2 network with the loaded
`H + H -> H2` reaction: the slot `H` of the retained reaction is the name of
a species in the final table. -/
theorem loaded_participants_in_final_table_witness :
    str "H" ∈ processTokens ∨
      str "H" ∈ (filter_species [sH, sH2] [rH2loaded]).1.map Species.name :=
  loaded_participants_in_final_table .UCL
    [[str "H", str "1", str "0", str "0", str "0", str "0", str "0"],
     [str "H2", str "2", str "0", str "0", str "0", str "0", str "0"]]
    [h2GasRow] 2 [sH, sH2] 1 [rH2loaded]
    (by rfl) (by rfl) rH2loaded (by simp) (str "H") (by decide)
    (by decide) (by decide)

/-! ## C10 — alignment of the species table and the generated ODE code -/

/-- The species-table row loop emits exactly one row per species, in list
order: data row `k` is built from the species at position `k`. -/
theorem species_rows_go_spec :
    ∀ (l : List Species) (rows : List (List Str)),
      species_rows_go l = some rows →
      rows.length = l.length ∧
      ∀ k (h : k < l.length), rows[k]? = species_row (l.get ⟨k, h⟩) := by
  intro l
  induction l with
  | nil =>
    intro rows h
    have h' := Option.some.inj h
    subst h'
    exact ⟨rfl, fun k h => absurd h (by simp)⟩
  | cons s rest ih =>
    intro rows h
    unfold species_rows_go at h
    rcases option_bind_some h with ⟨r, hrow, h⟩
    rcases option_bind_some h with ⟨tail, htail, h⟩
    have h' := Option.some.inj h
    subst h'
    rcases ih tail htail with ⟨hlen, hidx⟩
    refine ⟨by simp [hlen], fun k hk => ?_⟩
    cases k with
    | zero => simpa using hrow.symm
    | succ k =>
      have hk' : k < rest.length := by simpa using hk
      simpa using hidx k hk'

/-- The ODE block loop emits exactly one block per species, in list order,
and the block at position `k` is generated with index `n0 + k`. -/
theorem ode_blocks_go_spec (sl : List Species) (rl : List Reaction) :
    ∀ (l : List Species) (n0 : Nat) (bs : List Str),
      ode_blocks_go sl rl n0 l = some bs →
      bs.length = l.length ∧
      ∀ k (h : k < l.length),
        bs[k]? = species_ode_block sl rl (n0 + k) (l.get ⟨k, h⟩) := by
  intro l
  induction l with
  | nil =>
    intro n0 bs h
    have h' := Option.some.inj h
    subst h'
    exact ⟨rfl, fun k h => absurd h (by simp)⟩
  | cons s rest ih =>
    intro n0 bs h
    unfold ode_blocks_go at h
    rcases option_bind_some h with ⟨b, hblock, h⟩
    rcases option_bind_some h with ⟨tail, htail, h⟩
    have h' := Option.some.inj h
    subst h'
    rcases ih (n0 + 1) tail htail with ⟨hlen, hidx⟩
    refine ⟨by simp [hlen], fun k hk => ?_⟩
    cases k with
    | zero => simpa using hblock.symm
    | succ k =>
      have hk' : k < rest.length := by simpa using hk
      have := hidx k hk'
      have harith : n0 + 1 + k = n0 + (k + 1) := by omega
      rw [harith] at this
      simpa using this

/-- The derivative statement for position `n` assigns `YDOT(n+1)`, and when
a loss term exists it multiplies the species' own abundance `Y(n+1)`. -/
theorem ydot_string_shape (lossRaw formRaw : Str) (n : Nat) :
    (∃ t, ydot_string lossRaw formRaw n =
      str "      YDOT(" ++ pyStr (n + 1) ++ str ") = " ++ t) ∧
    (lossRaw ≠ [] → ∃ p, ydot_string lossRaw formRaw n =
      p ++ (str "Y(" ++ pyStr (n + 1) ++ str ")*LOSS" ++ str "\n")) := by
  by_cases hf : formRaw = [] <;> by_cases hl : lossRaw = []
  · exact ⟨⟨str "\n", by simp [ydot_string, hf, hl]⟩,
      fun hl' => absurd hl hl'⟩
  · exact ⟨⟨str "Y(" ++ pyStr (n + 1) ++ str ")*LOSS" ++ str "\n",
      by simp [ydot_string, hf, hl, List.append_assoc]⟩,
      fun _ => ⟨str "      YDOT(" ++ pyStr (n + 1) ++ str ") = ",
      by simp [ydot_string, hf, hl, List.append_assoc]⟩⟩
  · exact ⟨⟨str "PROD" ++ str "\n",
      by simp [ydot_string, hf, hl, List.append_assoc]⟩,
      fun hl' => absurd hl hl'⟩
  · exact ⟨⟨str "PROD" ++ str "+" ++
        (str "Y(" ++ pyStr (n + 1) ++ str ")*LOSS") ++ str "\n",
      by simp [ydot_string, hf, hl, List.append_assoc]⟩,
      fun _ => ⟨str "      YDOT(" ++ pyStr (n + 1) ++ str ") = " ++
        str "PROD" ++ str "+",
      by simp [ydot_string, hf, hl, List.append_assoc]⟩⟩

/-- Whatever `electron_eq` emits in F90 format is the line-wrapped assignment
of the electron slot `Y(nSpecies+1)` — the same numeral `nSpecies+1` that
`write_species` writes as the table's count header. -/
theorem electron_eq_assigns_electron_slot (sl : List Species) (out : Str)
    (he : electron_eq .F90 sl = some out) :
    ∃ rhs, truncate_lineFuel
        (str "      Y(" ++ pyStr (sl.length + 1) ++ str ") = " ++ rhs).length
        CodeFormat.F90 none
        (str "      Y(" ++ pyStr (sl.length + 1) ++ str ") = " ++ rhs) =
      some out := by
  unfold electron_eq at he
  rcases option_bind_some he with ⟨eqs, _hscan, he⟩
  simp only [gt_iff_lt] at he
  split at he
  case isTrue hlen =>
    refine ⟨eqs ++ str "\n", ?_⟩
    simp only [List.append_assoc] at he ⊢
    exact he
  case isFalse hlen =>
    refine ⟨str "0\n", ?_⟩
    have hsplit : str ") = 0\n" = str ") = " ++ str "0\n" := rfl
    rw [hsplit] at he
    simp only [List.append_assoc] at he ⊢
    exact he

/-- C10 (confirmed): `write_species` and `write_odes_f90` enumerate the same
species list in the same order — data row `n` (0-based) of the species table
is built from the species whose block is number `n` in the generated code,
that block's derivative statement assigns `YDOT(n+1)` and (when a loss term
exists) multiplies the species' own abundance `Y(n+1)`, and the synthesized
electron statement assigns slot `Y(nSpecies+1)`, the same numeral written as
the species-table count header. -/
theorem species_rows_align_with_odes
    (sl : List Species) (rl : List Reaction) (hdr : Str)
    (rows : List (List Str)) (blocks : List Str) (eq : Str)
    (hw : write_species sl = some (hdr, rows))
    (hb : ode_blocks sl rl = some blocks)
    (he : electron_eq .F90 sl = some eq) :
    hdr = pyStr (sl.length + 1) ∧
    rows.length = sl.length ∧
    blocks.length = sl.length ∧
    (∀ n (h : n < sl.length), rows[n]? = species_row (sl.get ⟨n, h⟩)) ∧
    (∀ n (h : n < sl.length),
      blocks[n]? = species_ode_block sl rl n (sl.get ⟨n, h⟩)) ∧
    (∀ lossRaw formRaw n, ∃ t, ydot_string lossRaw formRaw n =
      str "      YDOT(" ++ pyStr (n + 1) ++ str ") = " ++ t) ∧
    (∀ lossRaw formRaw n, lossRaw ≠ [] → ∃ p, ydot_string lossRaw formRaw n =
      p ++ (str "Y(" ++ pyStr (n + 1) ++ str ")*LOSS" ++ str "\n")) ∧
    (∃ rhs, truncate_lineFuel
        (str "      Y(" ++ pyStr (sl.length + 1) ++ str ") = " ++ rhs).length
        CodeFormat.F90 none
        (str "      Y(" ++ pyStr (sl.length + 1) ++ str ") = " ++ rhs) =
      some eq) ∧
    (∀ out, write_odes_f90 sl rl = some out →
      out = eq ++ str "\n" ++ blocks.flatten) := by
  have hw' := hw
  unfold write_species at hw'
  rcases option_bind_some hw' with ⟨rows', hrows', hpair⟩
  have hp := Option.some.inj hpair
  have hhdr : hdr = pyStr (sl.length + 1) := (congrArg Prod.fst hp).symm
  have hrows : rows' = rows := congrArg Prod.snd hp
  subst hrows
  rcases species_rows_go_spec sl rows' hrows' with ⟨hrlen, hridx⟩
  rcases ode_blocks_go_spec sl rl sl 0 blocks hb with ⟨hblen, hbidx⟩
  refine ⟨hhdr, hrlen, hblen, hridx, ?_, ?_, ?_, ?_, ?_⟩
  · intro n h
    simpa using hbidx n h
  · intro lossRaw formRaw n
    exact (ydot_string_shape lossRaw formRaw n).1
  · intro lossRaw formRaw n hl
    exact (ydot_string_shape lossRaw formRaw n).2 hl
  · exact electron_eq_assigns_electron_slot sl eq he
  · intro out hout
    unfold write_odes_f90 at hout
    rcases option_bind_some hout with ⟨eq', he', hout⟩
    rcases option_bind_some hout with ⟨blocks', hb', hout⟩
    have heq : eq' = eq := Option.some.inj (he'.symm.trans he)
    have hbl : blocks' = blocks := Option.some.inj (hb'.symm.trans hb)
    subst heq
    subst hbl
    exact (Option.some.inj hout).symm

/-- Species `H` with its atom count assigned (as after
`find_constituents`). -/
def sHa : Species := { sH with n_atoms := some 1 }

/-- Species `H2` with its atom count assigned. -/
def sH2a : Species := { sH2 with n_atoms := some 2 }

/-- The species-table rows `write_species` emits for `[sHa, sH2a]`. -/
def exRows : List (List Str) :=
  [[str "H", str "1", str "1"], [str "H2", str "2", str "2"]]

/-- The per-species ODE blocks generated for the `H`/`H2` network with the
loaded `H + H -> H2` reaction. -/
def exBlocks : List Str :=
  [str "      LOSS = -2*RATE(1)*Y(1)*D\n      YDOT(1) = Y(1)*LOSS\n",
   str "      PROD = +RATE(1)*Y(1)*Y(1)*D\n      YDOT(2) = PROD\n"]

/-- Witness for C10 at the two-species network: row 1 of the species table
is built from the species whose ODE block is number 1, and the block count
matches. -/
theorem species_rows_align_with_odes_witness :
    exRows[1]? = species_row sH2a ∧
    exBlocks[1]? = species_ode_block [sHa, sH2a] [rH2loaded] 1 sH2a ∧
    exBlocks.length = 2 :=
  have T := species_rows_align_with_odes [sHa, sH2a] [rH2loaded]
    (pyStr 3) exRows exBlocks (str "      Y(3) = 0\n") rfl rfl rfl
  ⟨T.2.2.2.1 1 (by decide), T.2.2.2.2.1 1 (by decide), by decide⟩

/-! ## C3 — line wrapping: split positions and the strip-and-rejoin map

The claim speaks of "splitting at operator boundaries" and of "stripping the
continuation markers and concatenating".  These are formalised by
`contLinesOk` (every continuation line carries the 13-character `&` prefix
immediately followed by one of `+ - * /`) and `rejoin` (undo the wrapping:
a line ending in ` &` is glued to the next line with that prefix stripped;
other line breaks are kept). -/

/-- The four arithmetic operator characters `truncate_line` searches for. -/
def opChars : List Char := ['+', '-', '*', '/']

/-- Split a string at every newline; the result is never empty. -/
def splitNL : Str → List Str
  | [] => [[]]
  | c :: rest =>
    if c = '\n' then [] :: splitNL rest
    else (c :: (splitNL rest).headD []) :: (splitNL rest).tail

/-- Does the line end with the F90 continuation suffix ` &`? -/
def endsAmp (l : Str) : Bool :=
  match l.reverse with
  | c1 :: c2 :: _ => c1 == '&' && c2 == ' '
  | _ => false

/-- Drop the trailing ` &` continuation suffix. -/
def dropAmp (l : Str) : Str := l.take (l.length - 2)

/-- Strip the 13-character continuation prefix when present. -/
def stripMarker (l : Str) : Str :=
  if contMarker.isPrefixOf l then l.drop contMarker.length else l

/-- Glue split lines back together: a line ending in ` &` is concatenated
with the next line (its continuation prefix stripped); other breaks keep
their newline. -/
def glueAux (cur : Str) : List Str → Str
  | [] => cur
  | l :: rest =>
    if endsAmp cur then dropAmp cur ++ glueAux (stripMarker l) rest
    else cur ++ '\n' :: glueAux l rest

/-- Undo the line wrapping of a whole emitted text. -/
def rejoin (s : Str) : Str :=
  match splitNL s with
  | [] => []
  | l :: rest => glueAux l rest

/-- Like `rejoin` but also strips a continuation prefix from the very first
line (used for the recursive worker, whose input is itself a continuation
line). -/
def rejoinCont (s : Str) : Str :=
  match splitNL s with
  | [] => []
  | l :: rest => glueAux (stripMarker l) rest

/-- The per-pair continuation check: when `cur` ends with ` &`, the next
line must start with the 13-character marker immediately followed by an
arithmetic operator. -/
def contPairOk (cur l : Str) : Bool :=
  if endsAmp cur then
    contMarker.isPrefixOf l &&
      (match (l.drop contMarker.length).head? with
       | some c => c ∈ opChars
       | none => false)
  else true

/-- Check every adjacent line pair — the claim's "splits only at operator
boundaries". -/
def contOkAux (cur : Str) : List Str → Bool
  | [] => true
  | l :: rest => contPairOk cur l && contOkAux l rest

/-- `contOkAux` over the lines of a whole emitted text. -/
def contLinesOk (s : Str) : Bool :=
  match splitNL s with
  | [] => true
  | l :: rest => contOkAux l rest

/-- The executions of `truncate_line`'s loop covered by the amended claim:
every pending line either fits in 72 columns or finds an operator at column
14 or later (past the continuation prefix), and the 30-continuation cap is
never reached.  This mirrors the loop of `truncAux` step for step. -/
def truncGood : Nat → Nat → Str → Bool
  | 0, _, cur => cur.length ≤ lineLength
  | fuel + 1, lines, cur =>
    if cur.length ≤ lineLength then true
    else if lines + 1 = maxlines then false
    else
      decide (14 ≤ opSplitIdx cur) &&
        truncGood fuel (lines + 1) (contMarker ++ pySliceFrom cur (opSplitIdx cur))

/-- The input is one `'\n'`-terminated line: nonempty, ending in a newline,
with no interior newline. -/
def nlTerminated (s : Str) : Prop :=
  s ≠ [] ∧ s.getLast? = some '\n' ∧ '\n' ∉ s.dropLast

/-- A 81-character assignment line with no arithmetic operator anywhere. -/
def cNoOp : Str :=
  str "      X = AAAAAAAAAAAAAAAAAAAAAAAAAAAAAAAAAAAAAAAAAAAAAAAAAAAAAAAAAAAAAAAAAAAAAA\n"

/-- C3 (counterexample): on a 81-column assignment with no arithmetic
operator, `truncate_line` still splits (all four `rfind`s return `-1`, and
Python's negative slice cuts before the final character), producing a
continuation line whose payload after the `&` prefix is *empty* rather than
an operator — the split is not at an operator boundary, refuting "splits
only at arithmetic operator boundaries, never mid-token" as a property of
every assignment string. -/
theorem truncate_line_splits_off_operators :
    truncate_line cNoOp =
      some (str "      X = AAAAAAAAAAAAAAAAAAAAAAAAAAAAAAAAAAAAAAAAAAAAAAAAAAAAAAAAAAAAAAAAAAAAAA &\n     &       \n") ∧
    contLinesOk (str "      X = AAAAAAAAAAAAAAAAAAAAAAAAAAAAAAAAAAAAAAAAAAAAAAAAAAAAAAAAAAAAAAAAAAAAAA &\n     &       \n") = false ∧
    rejoin (str "      X = AAAAAAAAAAAAAAAAAAAAAAAAAAAAAAAAAAAAAAAAAAAAAAAAAAAAAAAAAAAAAAAAAAAAAA &\n     &       \n") = cNoOp := by
  refine ⟨rfl, rfl, rfl⟩

/-! ### Helper lemmas for the amended round-trip theorem -/

/-- `splitNL` never returns the empty list. -/
theorem splitNL_ne_nil (s : Str) : splitNL s ≠ [] := by
  induction s with
  | nil => simp [splitNL]
  | cons c rest ih =>
    unfold splitNL
    split <;> simp

/-- Splitting `a ++ '\n' :: b` when `a` has no newline yields `a` and the
lines of `b`. -/
theorem splitNL_append {a : Str} (ha : '\n' ∉ a) (b : Str) :
    splitNL (a ++ '\n' :: b) = a :: splitNL b := by
  induction a with
  | nil => simp [splitNL]
  | cons c a' ih =>
    have hc : c ≠ '\n' := fun h => ha (h ▸ List.mem_cons_self c a')
    have ha' : '\n' ∉ a' := fun h => ha (List.mem_cons_of_mem c h)
    rw [List.cons_append, splitNL, if_neg hc, ih ha']
    simp

/-- A newline-free string is a single line. -/
theorem splitNL_no_nl {a : Str} (ha : '\n' ∉ a) : splitNL a = [a] := by
  induction a with
  | nil => rfl
  | cons c a' ih =>
    have hc : c ≠ '\n' := fun h => ha (h ▸ List.mem_cons_self c a')
    have ha' : '\n' ∉ a' := fun h => ha (List.mem_cons_of_mem c h)
    rw [splitNL, if_neg hc, ih ha']
    simp

/-- A line with the ` &` suffix passes `endsAmp`. -/
theorem endsAmp_append_amp (a : Str) : endsAmp (a ++ str " &") = true := by
  unfold endsAmp
  rw [show (str " &") = [' ', '&'] from rfl, List.reverse_append]
  rfl

/-- A line passing `endsAmp` ends in `&`. -/
theorem getLast?_of_endsAmp {l : Str} (h : endsAmp l = true) :
    l.getLast? = some '&' := by
  unfold endsAmp at h
  rw [List.getLast?_eq_head?_reverse]
  rcases hrev : l.reverse with _ | ⟨c, rest⟩
  · rw [hrev] at h
    simp at h
  · rw [hrev] at h
    rcases rest with _ | ⟨c2, rest2⟩
    · simp at h
    · simp only [Bool.and_eq_true, beq_iff_eq] at h
      rw [h.1]
      rfl

/-- An `&`-free line never passes `endsAmp`. -/
theorem endsAmp_false_of_no_amp {l : Str} (h : '&' ∉ l) : endsAmp l = false := by
  cases hAmp : endsAmp l with
  | false => rfl
  | true =>
    exact absurd (List.mem_of_getLast?_eq_some (getLast?_of_endsAmp hAmp)) h

/-- Dropping the ` &` suffix recovers the line. -/
theorem dropAmp_append (a : Str) : dropAmp (a ++ str " &") = a := by
  unfold dropAmp
  rw [show (str " &") = [' ', '&'] from rfl]
  simp

/-- Stripping the marker from a marker-prefixed line keeps the payload. -/
theorem stripMarker_append (x : Str) : stripMarker (contMarker ++ x) = x := by
  unfold stripMarker
  rw [if_pos, List.drop_left]
  rw [List.isPrefixOf_iff_prefix]
  exact List.prefix_append contMarker x

/-- A line whose first 13 characters are `&`-free has no marker prefix to
strip. -/
theorem stripMarker_of_no_amp {l : Str} (h : '&' ∉ l.take 13) :
    stripMarker l = l := by
  unfold stripMarker
  rw [if_neg]
  intro hp
  rw [List.isPrefixOf_iff_prefix, List.prefix_iff_eq_take] at hp
  have hamp : '&' ∈ contMarker := by decide
  rw [hp] at hamp
  exact h (by simpa using hamp)

/-- `dropLast` and `drop` commute. -/
theorem dropLast_drop_comm : ∀ (l : Str) (d : Nat),
    (l.drop d).dropLast = l.dropLast.drop d := by
  intro l
  induction l with
  | nil => intro d; simp
  | cons x xs ih =>
    intro d
    cases d with
    | zero => simp
    | succ d =>
      rcases xs with _ | ⟨y, ys⟩
      · simp
      · rw [List.drop_succ_cons, ih d, List.dropLast_cons₂, List.drop_succ_cons]

/-- The scanning helper of `rfindChar` either keeps the incoming best value
or returns the position of an occurrence of `c` below `stop`. -/
theorem rfindFrom_spec (c : Char) (stop : Nat) :
    ∀ (l : Str) (i0 : Nat) (best : Int),
      rfindFrom c stop l i0 best = best ∨
      ∃ k : Nat, k < l.length ∧ l[k]? = some c ∧
        rfindFrom c stop l i0 best = (i0 + k : Int) ∧ i0 + k < stop := by
  intro l
  induction l with
  | nil => intro i0 best; exact Or.inl rfl
  | cons x xs ih =>
    intro i0 best
    rw [rfindFrom]
    by_cases hx : x = c ∧ i0 < stop
    · rw [if_pos hx]
      rcases ih (i0 + 1) (i0 : Int) with h | ⟨k, hk, hkc, heq, hlt⟩
      · refine Or.inr ⟨0, by simp, by simpa using congrArg some hx.1, ?_, ?_⟩
        · rw [h]
          omega
        · omega
      · refine Or.inr ⟨k + 1, by simpa using hk, by simpa using hkc, ?_, ?_⟩
        · rw [heq]
          omega
        · omega
    · rw [if_neg hx]
      rcases ih (i0 + 1) best with h | ⟨k, hk, hkc, heq, hlt⟩
      · exact Or.inl h
      · refine Or.inr ⟨k + 1, by simpa using hk, by simpa using hkc, ?_, ?_⟩
        · rw [heq]
          omega
        · omega

/-- A non-negative `rfindChar` result is the position of an occurrence of
`c` below `stop`. -/
theorem rfindChar_found {l : Str} {c : Char} {stop : Nat}
    (h : 0 ≤ rfindChar l c stop) :
    ∃ k : Nat, (k : Int) = rfindChar l c stop ∧ k < stop ∧
      k < l.length ∧ l[k]? = some c := by
  unfold rfindChar at *
  rcases rfindFrom_spec c stop l 0 (-1) with he | ⟨k, hk, hkc, heq, hlt⟩
  · rw [he] at h
    omega
  · exact ⟨k, by rw [heq]; omega, by omega, hk, hkc⟩

/-- A non-negative operator-split index points at an operator character
below the column limit. -/
theorem opSplitIdx_found {cur : Str} (h : 0 ≤ opSplitIdx cur) :
    ∃ (k : Nat) (c : Char), (k : Int) = opSplitIdx cur ∧ k < lineLength ∧
      k < cur.length ∧ cur[k]? = some c ∧ c ∈ opChars := by
  have ham : ∀ (a b : Int), max a b = a ∨ max a b = b := fun a b => max_choice a b
  unfold opSplitIdx at *
  rcases ham (max (rfindChar cur '+' lineLength) (rfindChar cur '-' lineLength))
      (max (rfindChar cur '*' lineLength) (rfindChar cur '/' lineLength)) with
      h1 | h1 <;> rw [h1] at h ⊢
  · rcases ham (rfindChar cur '+' lineLength) (rfindChar cur '-' lineLength) with
        h2 | h2 <;> rw [h2] at h ⊢
    · rcases rfindChar_found h with ⟨k, hke, hks, hkl, hkc⟩
      exact ⟨k, '+', hke, hks, hkl, hkc, by decide⟩
    · rcases rfindChar_found h with ⟨k, hke, hks, hkl, hkc⟩
      exact ⟨k, '-', hke, hks, hkl, hkc, by decide⟩
  · rcases ham (rfindChar cur '*' lineLength) (rfindChar cur '/' lineLength) with
        h2 | h2 <;> rw [h2] at h ⊢
    · rcases rfindChar_found h with ⟨k, hke, hks, hkl, hkc⟩
      exact ⟨k, '*', hke, hks, hkl, hkc, by decide⟩
    · rcases rfindChar_found h with ⟨k, hke, hks, hkl, hkc⟩
      exact ⟨k, '/', hke, hks, hkl, hkc, by decide⟩

/-- A line fitting within the column limit unwraps to itself: `rejoinCont`
recovers the payload, no continuation check fails, and the single emitted
line is the (possibly marker-prefixed) body of the input. -/
theorem trunc_base (pre core : Str) (hpre : pre = [] ∨ pre = contMarker)
    (hamp : '&' ∉ core) (hnl : nlTerminated core) :
    rejoinCont (pre ++ core) = core ∧ contLinesOk (pre ++ core) = true ∧
    ∃ w rest, splitNL (pre ++ core) = (pre ++ w) :: rest ∧
      (2 ≤ core.length → w.head? = core.head?) ∧
      (pre = [] → '&' ∉ w.take 13) := by
  rcases hnl with ⟨hne, hlast, hinner⟩
  have hcore : core = core.dropLast ++ ['\n'] := by
    conv_lhs => rw [← List.dropLast_concat_getLast hne]
    have : core.getLast hne = '\n' := by
      have := List.getLast?_eq_getLast core hne
      rw [hlast] at this
      exact (Option.some.inj this).symm
    rw [this]
  have hbodyamp : '&' ∉ core.dropLast :=
    fun h => hamp (List.dropLast_subset core h)
  have hprenl : '\n' ∉ pre := by
    rcases hpre with rfl | rfl
    · simp
    · decide
  have hnlfree : '\n' ∉ pre ++ core.dropLast := by
    intro h
    rcases List.mem_append.mp h with h | h
    · exact hprenl h
    · exact hinner h
  have hsplit : splitNL (pre ++ core) = (pre ++ core.dropLast) :: [[]] := by
    conv_lhs => rw [hcore]
    rw [show pre ++ (core.dropLast ++ ['\n']) =
      (pre ++ core.dropLast) ++ '\n' :: [] by simp]
    rw [splitNL_append hnlfree]
    rfl
  have hstrip : stripMarker (pre ++ core.dropLast) = core.dropLast := by
    rcases hpre with rfl | rfl
    · rw [List.nil_append]
      exact stripMarker_of_no_amp (fun h => hbodyamp (List.take_subset 13 _ h))
    · exact stripMarker_append _
  have hEnds : endsAmp (pre ++ core.dropLast) = false := by
    by_cases hb : core.dropLast = []
    · rw [hb, List.append_nil]
      rcases hpre with rfl | rfl
      · rfl
      · decide
    · cases hE : endsAmp (pre ++ core.dropLast) with
      | false => rfl
      | true =>
        exfalso
        have hglast := getLast?_of_endsAmp hE
        rw [List.getLast?_append] at hglast
        rcases hg : core.dropLast.getLast? with _ | c
        · exact hb (List.getLast?_eq_none_iff.mp hg)
        · rw [hg] at hglast
          rw [Option.or_some] at hglast
          have hc : c = '&' := Option.some.inj hglast
          exact hbodyamp (hc ▸ List.mem_of_getLast?_eq_some hg)
  have hEndsBody : endsAmp core.dropLast = false := endsAmp_false_of_no_amp hbodyamp
  refine ⟨?_, ?_, core.dropLast, [[]], hsplit, ?_, ?_⟩
  · have h1 : rejoinCont (pre ++ core) =
        glueAux (stripMarker (pre ++ core.dropLast)) [[]] := by
      rw [rejoinCont, hsplit]
    rw [h1, hstrip]
    have h2 : glueAux core.dropLast [[]] = core.dropLast ++ '\n' :: [] := by
      rw [show glueAux core.dropLast [[]] =
        (if endsAmp core.dropLast = true then
          dropAmp core.dropLast ++ glueAux (stripMarker []) []
         else core.dropLast ++ '\n' :: glueAux [] []) from rfl]
      rw [if_neg (by simp [hEndsBody])]
      rfl
    rw [h2]
    exact hcore.symm
  · have h1 : contLinesOk (pre ++ core) =
        contOkAux (pre ++ core.dropLast) [[]] := by
      rw [contLinesOk, hsplit]
    rw [h1,
      show contOkAux (pre ++ core.dropLast) [[]] =
        (contPairOk (pre ++ core.dropLast) [] && contOkAux [] []) from rfl]
    rw [show contOkAux ([] : Str) [] = true from rfl]
    rw [contPairOk, if_neg (by simp [hEnds])]
    rfl
  · intro h2
    conv_rhs => rw [hcore]
    have hb : core.dropLast ≠ [] := by
      intro hb
      rw [hcore, hb] at h2
      simp at h2
    rw [List.head?_append_of_ne_nil _ hb]
  · intro _
    exact fun h => hbodyamp (List.take_subset 13 _ h)

/-- The recursive worker: on every execution the checker `truncGood`
accepts, the `truncate_line` loop succeeds, stripping the continuation
markers recovers the payload exactly, and every split sits at an operator
boundary.  `pre` is the continuation prefix already attached to the pending
line (empty at top level, the 13-character marker on recursive calls). -/
theorem truncAux_roundtrip (lhs : Str) :
    ∀ (fuel lines : Nat) (pre core : Str),
      pre = [] ∨ pre = contMarker →
      truncGood fuel lines (pre ++ core) = true →
      '&' ∉ core → nlTerminated core →
      ∃ out, truncAux CodeFormat.F90 none lhs fuel lines (pre ++ core) = some out ∧
        rejoinCont out = core ∧ contLinesOk out = true ∧
        ∃ w rest, splitNL out = (pre ++ w) :: rest ∧
          (2 ≤ core.length → w.head? = core.head?) ∧
          (pre = [] → '&' ∉ w.take 13) := by
  intro fuel
  induction fuel with
  | zero =>
    intro lines pre core hpre hgood hamp hnl
    have h72 : (pre ++ core).length ≤ lineLength := by
      simpa [truncGood] using hgood
    rcases trunc_base pre core hpre hamp hnl with ⟨hb1, hb2, hb3⟩
    exact ⟨pre ++ core, by rw [truncAux, if_pos h72], hb1, hb2, hb3⟩
  | succ fuel ih =>
    intro lines pre core hpre hgood hamp hnl
    by_cases h72 : (pre ++ core).length ≤ lineLength
    · rcases trunc_base pre core hpre hamp hnl with ⟨hb1, hb2, hb3⟩
      exact ⟨pre ++ core, by rw [truncAux, if_pos h72], hb1, hb2, hb3⟩
    · rw [truncGood, if_neg h72] at hgood
      by_cases hcap : lines + 1 = maxlines
      · rw [if_pos hcap] at hgood
        exact absurd hgood (by simp)
      rw [if_neg hcap] at hgood
      rcases (Bool.and_eq_true _ _ ▸ hgood : _ ∧ _) with ⟨h14b, hrec⟩
      have h14 : 14 ≤ opSplitIdx (pre ++ core) := of_decide_eq_true h14b
      have h0 : (0 : Int) ≤ opSplitIdx (pre ++ core) := by omega
      rcases opSplitIdx_found h0 with ⟨t, opc, hte, ht72, htlen, htc, hopc⟩
      have ht14 : 14 ≤ t := by omega
      have hpre13 : pre.length ≤ 13 := by
        rcases hpre with rfl | rfl
        · simp
        · decide
      have hlen_app : (pre ++ core).length = pre.length + core.length := by simp
      have hdlen : t - pre.length < core.length := by omega
      have hd1 : 1 ≤ t - pre.length := by omega
      -- resolve the Python slices to `take`/`drop`
      have hslto : pySliceTo (pre ++ core) (opSplitIdx (pre ++ core)) =
          (pre ++ core).take t := by
        rw [pySliceTo, if_pos h0, ← hte]
        simp
      have hslfrom : pySliceFrom (pre ++ core) (opSplitIdx (pre ++ core)) =
          (pre ++ core).drop t := by
        rw [pySliceFrom, if_pos h0, ← hte]
        simp
      have htake : (pre ++ core).take t = pre ++ core.take (t - pre.length) := by
        rw [List.take_append_eq_append_take, List.take_of_length_le (by omega)]
      have hdrop : (pre ++ core).drop t = core.drop (t - pre.length) := by
        rw [List.drop_append_eq_append_drop, List.drop_eq_nil_of_le (by omega),
          List.nil_append]
      -- facts about the remainder
      have hampC : '&' ∉ core.drop (t - pre.length) :=
        fun h => hamp (List.mem_of_mem_drop h)
      have hcoreget : core[t - pre.length]? = some opc := by
        have := htc
        rw [List.getElem?_append_right (by omega)] at this
        exact this
      have hheadC : (core.drop (t - pre.length)).head? = some opc := by
        rw [List.head?_drop]
        exact hcoreget
      have hneC : core.drop (t - pre.length) ≠ [] := by
        intro h
        rw [h] at hheadC
        exact absurd hheadC (by simp)
      have hlastC : (core.drop (t - pre.length)).getLast? = some '\n' := by
        have hsc := hnl.2.1
        conv_lhs at hsc => rw [← List.take_append_drop (t - pre.length) core]
        rw [List.getLast?_append] at hsc
        rcases hg : (core.drop (t - pre.length)).getLast? with _ | c
        · exact absurd (List.getLast?_eq_none_iff.mp hg) hneC
        · rw [hg, Option.or_some] at hsc
          rw [hsc]
      have hnlC : nlTerminated (core.drop (t - pre.length)) := by
        refine ⟨hneC, hlastC, ?_⟩
        intro h
        rw [dropLast_drop_comm] at h
        exact hnl.2.2 (List.mem_of_mem_drop h)
      have hopcnl : opc ≠ '\n' := by
        have hall : ∀ c ∈ opChars, c ≠ '\n' := by decide
        exact hall opc hopc
      have h2C : 2 ≤ (core.drop (t - pre.length)).length := by
        by_contra hlt
        have hlen1 : (core.drop (t - pre.length)).length = 1 := by
          have : core.drop (t - pre.length) ≠ [] := hneC
          have hpos : 0 < (core.drop (t - pre.length)).length :=
            List.length_pos.mpr this
          omega
        rcases List.length_eq_one.mp hlen1 with ⟨a, ha⟩
        rw [ha] at hheadC hlastC
        have h1 : a = opc := by simpa using hheadC
        have h2 : a = '\n' := by simpa using hlastC
        exact hopcnl (h1 ▸ h2 ▸ rfl)
      -- the recursive call
      rw [hslfrom, hdrop] at hrec
      rcases ih (lines + 1) contMarker (core.drop (t - pre.length)) (Or.inr rfl)
        hrec hampC hnlC with
        ⟨out', hout', hrej', hcont', w', rest', hsplit', hwhead', _hwtake'⟩
      -- the step equation of the loop
      have hstep : truncAux CodeFormat.F90 none lhs (fuel + 1) lines (pre ++ core) =
          (truncAux CodeFormat.F90 none lhs fuel (lines + 1)
            (contMarker ++ pySliceFrom (pre ++ core) (opSplitIdx (pre ++ core)))).map
            (fun rest =>
              (pySliceTo (pre ++ core) (opSplitIdx (pre ++ core)) ++ str " &\n") ++
                rest) := by
        rw [truncAux, if_neg h72, if_neg hcap]
        rfl
      rw [hslto, hslfrom, htake, hdrop, hout'] at hstep
      -- newline-freedom of the emitted chunk
      have hprenl : '\n' ∉ pre := by
        rcases hpre with rfl | rfl
        · simp
        · decide
      have hchunkeq : core.take (t - pre.length) =
          core.dropLast.take (t - pre.length) := by
        conv_lhs => rw [← List.dropLast_concat_getLast hnl.1]
        rw [List.take_append_of_le_length (by simp [List.length_dropLast]; omega)]
      have hchunknl : '\n' ∉ core.take (t - pre.length) := by
        rw [hchunkeq]
        intro h
        exact hnl.2.2 (List.take_subset _ _ h)
      have hchunkamp : '&' ∉ core.take (t - pre.length) :=
        fun h => hamp (List.take_subset _ _ h)
      have hAnl : '\n' ∉ (pre ++ core.take (t - pre.length)) ++ [' ', '&'] := by
        intro h
        rcases List.mem_append.mp h with h | h
        · rcases List.mem_append.mp h with h | h
          · exact hprenl h
          · exact hchunknl h
        · simp at h
      have hsplitOut :
          splitNL (((pre ++ core.take (t - pre.length)) ++ str " &\n") ++ out') =
            ((pre ++ core.take (t - pre.length)) ++ str " &") :: splitNL out' := by
        rw [show ((pre ++ core.take (t - pre.length)) ++ str " &\n") ++ out' =
          ((pre ++ core.take (t - pre.length)) ++ [' ', '&']) ++ '\n' :: out' by
            simp [show str " &\n" = [' ', '&', '\n'] from rfl]]
        rw [splitNL_append hAnl]
        rfl
      refine ⟨((pre ++ core.take (t - pre.length)) ++ str " &\n") ++ out',
        by rw [hstep]; rfl, ?_, ?_, ?_⟩
      · -- rejoinCont recovers the payload
        have hr1 : rejoinCont (((pre ++ core.take (t - pre.length)) ++ str " &\n") ++ out') =
            glueAux (stripMarker ((pre ++ core.take (t - pre.length)) ++ str " &"))
              (splitNL out') := by
          rw [rejoinCont, hsplitOut]
        have hsm : stripMarker ((pre ++ core.take (t - pre.length)) ++ str " &") =
            core.take (t - pre.length) ++ str " &" := by
          rcases hpre with rfl | rfl
          · rw [List.nil_append]
            apply stripMarker_of_no_amp
            simp only [List.length_nil, Nat.sub_zero]
            have hdlen' : t < core.length := by simpa using hdlen
            have h13 : 13 ≤ (core.take t).length := by
              rw [List.length_take]
              omega
            rw [List.take_append_of_le_length h13]
            intro h
            exact hamp (List.take_subset _ _ (List.take_subset _ _ h))
          · rw [show (contMarker ++ core.take (t - contMarker.length)) ++ str " &" =
              contMarker ++ (core.take (t - contMarker.length) ++ str " &") by simp]
            exact stripMarker_append _
        rw [hr1, hsm, hsplit']
        rw [show glueAux (core.take (t - pre.length) ++ str " &")
            ((contMarker ++ w') :: rest') =
          (if endsAmp (core.take (t - pre.length) ++ str " &") = true then
            dropAmp (core.take (t - pre.length) ++ str " &") ++
              glueAux (stripMarker (contMarker ++ w')) rest'
           else (core.take (t - pre.length) ++ str " &") ++
              '\n' :: glueAux (contMarker ++ w') rest') from rfl]
        rw [if_pos (endsAmp_append_amp _), dropAmp_append]
        have hglue : glueAux (stripMarker (contMarker ++ w')) rest' =
            rejoinCont out' := by
          rw [rejoinCont, hsplit']
        rw [hglue, hrej']
        exact List.take_append_drop _ core
      · -- every split is at an operator boundary
        have hc1 : contLinesOk (((pre ++ core.take (t - pre.length)) ++ str " &\n") ++ out') =
            contOkAux ((pre ++ core.take (t - pre.length)) ++ str " &")
              (splitNL out') := by
          rw [contLinesOk, hsplitOut]
        rw [hc1, hsplit']
        rw [show contOkAux ((pre ++ core.take (t - pre.length)) ++ str " &")
            ((contMarker ++ w') :: rest') =
          (contPairOk ((pre ++ core.take (t - pre.length)) ++ str " &")
              (contMarker ++ w') &&
            contOkAux (contMarker ++ w') rest') from rfl]
        have hpair : contPairOk ((pre ++ core.take (t - pre.length)) ++ str " &")
            (contMarker ++ w') = true := by
          rw [contPairOk, if_pos (by rw [endsAmp_append_amp])]
          rw [Bool.and_eq_true]
          refine ⟨?_, ?_⟩
          · rw [List.isPrefixOf_iff_prefix]
            exact List.prefix_append _ _
          · rw [List.drop_left]
            have hw : w'.head? = some opc := by
              rw [hwhead' h2C, hheadC]
            rw [hw]
            simpa using hopc
        have hrest : contOkAux (contMarker ++ w') rest' = true := by
          have hco : contLinesOk out' = contOkAux (contMarker ++ w') rest' := by
            rw [contLinesOk, hsplit']
          rw [← hco]
          exact hcont'
        rw [hpair, hrest]
        rfl
      · -- the emitted first line
        refine ⟨core.take (t - pre.length) ++ str " &", splitNL out', ?_, ?_, ?_⟩
        · rw [hsplitOut]
          congr 1
          simp
        · intro _h2
          have hdne : core.take (t - pre.length) ≠ [] := by
            intro h
            have hlen0 := congrArg List.length h
            rw [List.length_take] at hlen0
            simp only [List.length_nil] at hlen0
            omega
          rw [List.head?_append_of_ne_nil _ hdne]
          rw [List.head?_take, if_neg (by omega)]
        · intro hpreE
          have hd14 : 14 ≤ t - pre.length := by
            rw [hpreE]
            simpa using ht14
          have h13 : 13 ≤ (core.take (t - pre.length)).length := by
            rw [List.length_take]
            omega
          rw [List.take_append_of_le_length h13]
          intro h
          exact hchunkamp (List.take_subset _ _ h)

/-- C3 (amended): on every input accepted by the `truncGood` checker — every
pending line either fits in 72 columns or has an arithmetic operator past
the 13-character continuation prefix, and the 30-continuation cap is never
reached — and containing an `=`, no `&`, and exactly one terminating
newline, `truncate_line` splits only at operator boundaries (every
continuation line is the marker followed by an operator) and stripping the
continuation markers and rejoining reproduces the original string
exactly. -/
theorem truncate_line_roundtrip (input : Str)
    (hgood : truncGood input.length 0 input = true)
    (hamp : '&' ∉ input) (hnl : nlTerminated input) (heq : '=' ∈ input) :
    ∃ out, truncate_line input = some out ∧ rejoin out = input ∧
      contLinesOk out = true := by
  have hfind : (input.findIdx? (· == '=')).isSome := by
    rw [List.findIdx?_isSome]
    exact List.any_eq_true.mpr ⟨'=', heq, by simp⟩
  rcases Option.isSome_iff_exists.mp hfind with ⟨i, hi⟩
  rcases truncAux_roundtrip (input.take i) input.length 0 [] input (Or.inl rfl)
      (by simpa using hgood) hamp hnl with
    ⟨out, hout, hrej, hcont, w, rest, hsplit, _hwhead, hwtake⟩
  refine ⟨out, ?_, ?_, hcont⟩
  · have hrun : truncate_line input =
        truncAux CodeFormat.F90 none (input.take i) input.length 0 input := by
      rw [truncate_line, truncate_lineFuel, hi]
      rfl
    rw [hrun]
    exact hout
  · have hhead : stripMarker w = w := stripMarker_of_no_amp (hwtake rfl)
    have h1 : rejoin out = glueAux w rest := by
      rw [rejoin, hsplit]
      rfl
    have h2 : rejoinCont out = glueAux (stripMarker w) rest := by
      rw [rejoinCont, hsplit]
      rfl
    rw [h1, ← hhead]
    rw [← h2]
    exact hrej

/-- A 92-column loss assignment, long enough to be wrapped once. -/
def exLossLine : Str :=
  str "      LOSS = -RATE(1)*Y(2)-RATE(2)*Y(3)-RATE(3)*Y(4)-RATE(4)*Y(5)-RATE(5)*Y(6)-RATE(6)*Y(7)\n"

/-- Witness for C3's amended theorem at a concrete 92-column loss line. -/
theorem truncate_line_roundtrip_witness :
    truncGood exLossLine.length 0 exLossLine = true ∧ '&' ∉ exLossLine ∧
    nlTerminated exLossLine ∧ '=' ∈ exLossLine ∧
    ∃ out, truncate_line exLossLine = some out ∧ rejoin out = exLossLine ∧
      contLinesOk out = true :=
  ⟨by decide, by decide, ⟨by decide, by decide, by decide⟩, by decide,
   truncate_line_roundtrip exLossLine (by decide) (by decide)
     ⟨by decide, by decide, by decide⟩ (by decide)⟩

end Makerates
